import Mathlib

/-!
Verification development for the log-analyzer repository.

Shallow embedding of the repository's core components:
* `mcp_manager.py` (connection/capability aggregator),
* `log_analyzer_agent.py` (query orchestrator / error classification),
* `time_tools.py` (timestamp validation),
* `output_formatter.py` (text normalization pipeline).

External effects (client construction, session open/close, tool listing,
probing, the reasoning agent) are modelled by explicit oracle functions,
everything else is translated directly from the Python source.
-/

set_option maxRecDepth 4000

/-! ### Provider specs and client construction (`mcp_manager.py`) -/

/-- A provider spec as consumed by `MCPManager.initialize_clients`.
`name`/`command` are `Option` to model a missing dictionary key. -/
structure ProviderSpec where
  name : Option String
  command : Option String
  args : List String
  env : List (String × String)
deriving DecidableEq, Repr

/-- `MCPManager._create_client` (lines 49-76): building `StdioServerParameters`
raises `KeyError` when `command` is missing, and any construction failure
(modelled by the oracle `ctorOk`) is caught inside the function, which then
returns `None`. The function itself never raises. -/
def createClient (ctorOk : ProviderSpec → Bool) (config : ProviderSpec) :
    Option ProviderSpec :=
  match config.command with
  | none => none
  | some _ => if ctorOk config then some config else none

/-- `MCPManager.initialize_clients` (lines 23-47).  For each config a client is
constructed; on success `logger.info` reads `config['name']`, whose absence
raises `KeyError`, which is re-raised from inside the `except` block (line 43
reads `config['name']` again).  A construction failure only skips the entry. -/
def initializeClients (ctorOk : ProviderSpec → Bool) :
    List ProviderSpec → Except String (List ProviderSpec)
  | [] => .ok []
  | config :: rest =>
    match createClient ctorOk config with
    | some client =>
      match config.name with
      | none => .error "KeyError: name"
      | some _ => (initializeClients ctorOk rest).map (client :: ·)
    | none => initializeClients ctorOk rest

/-- A provider spec the spec calls malformed: empty or missing name, or a
missing command. -/
def malformedSpec (config : ProviderSpec) : Prop :=
  config.name = none ∨ config.name = some "" ∨ config.command = none

/-! ### Manager state machine (`mcp_manager.py`) -/

/-- The mutable attributes of an `MCPManager` instance, with a ghost `nextId`
counter providing identities for freshly constructed client objects. -/
structure MState where
  clients : List Nat
  tools : List Nat
  activeClients : List Nat
  nextId : Nat
deriving DecidableEq, Repr

/-- A fresh `MCPManager()` (lines 18-21). -/
def initialMState : MState := ⟨[], [], [], 0⟩

/-- Oracles for the external effects of one manager: whether construction of a
spec succeeds, whether `__enter__` succeeds on a client, what
`list_tools_sync` returns (`none` models a raised exception), whether a
health probe cycle succeeds. -/
structure MEnv where
  ctorOk : ProviderSpec → Bool
  enterOk : Nat → Bool
  listRes : Nat → Option (List Nat)
  probeOk : Nat → Bool

/-- Whether `initialize_clients` raises on this config list: it raises at the
first config whose client is constructed but whose `name` key is missing. -/
def initRaises (ctorOk : ProviderSpec → Bool) : List ProviderSpec → Bool
  | [] => false
  | config :: rest =>
    match createClient ctorOk config with
    | some _ => config.name.isNone || initRaises ctorOk rest
    | none => initRaises ctorOk rest

/-- Number of clients constructed from a config list (the survivors). -/
def survivorCount (ctorOk : ProviderSpec → Bool) (specs : List ProviderSpec) : Nat :=
  (specs.filterMap (createClient ctorOk)).length

/-- The body of the `for` loop of `MCPManager.get_all_tools` (lines 85-101),
threaded over the client list: a client not yet active is entered first
(`__enter__` failure is caught and skips the client), then its tools are
listed (failure is caught; the client stays active). -/
def getAllToolsGo (env : MEnv) : List Nat → List Nat → List Nat → List Nat × List Nat
  | [], active, acc => (acc, active)
  | c :: cs, active, acc =>
    if c ∈ active then
      match env.listRes c with
      | some ts => getAllToolsGo env cs active (acc ++ ts)
      | none => getAllToolsGo env cs active acc
    else if env.enterOk c then
      match env.listRes c with
      | some ts => getAllToolsGo env cs (active ++ [c]) (acc ++ ts)
      | none => getAllToolsGo env cs (active ++ [c]) acc
    else
      getAllToolsGo env cs active acc

/-- `MCPManager.get_all_tools` (lines 78-105): aggregates tools and records
the newly opened connections; the aggregate is cached in `self.tools`. -/
def getAllTools (env : MEnv) (s : MState) : List Nat × MState :=
  let (allTools, active) := getAllToolsGo env s.clients s.activeClients []
  (allTools, { s with tools := allTools, activeClients := active })

/-- The loop of `MCPManager.health_check` (lines 116-125), with the running
index of `enumerate`.  Each probe is a scoped `with client:` open-and-list
cycle abstracted by `env.probeOk`; a failure only marks that entry `False`. -/
def healthCheckGo (env : MEnv) (i : Nat) : List Nat → List (String × Bool)
  | [] => []
  | c :: cs => ("client_" ++ Nat.repr i, env.probeOk c) :: healthCheckGo env (i + 1) cs

/-- `MCPManager.health_check` (lines 107-127).  It reads `self.clients` and
touches none of the manager's state. -/
def healthCheck (env : MEnv) (s : MState) : List (String × Bool) :=
  healthCheckGo env 0 s.clients

/-- The loop of `MCPManager.cleanup` (lines 132-136): every active client's
`__exit__` is attempted in activation order; a failure (modelled by
`closeOk c = false`) is caught and logged, never stopping the loop. -/
def cleanupGo (closeOk : Nat → Bool) : List Nat → List (Nat × Bool)
  | [] => []
  | c :: cs => (c, closeOk c) :: cleanupGo closeOk cs

/-- `MCPManager.cleanup` (lines 129-141): close every active client, then
clear the active list, the client list and the tool cache.  Returns the new
state together with the trace of attempted closes. -/
def cleanupM (closeOk : Nat → Bool) (s : MState) : MState × List (Nat × Bool) :=
  ({ clients := [], tools := [], activeClients := [], nextId := s.nextId },
   cleanupGo closeOk s.activeClients)

/-- One operation on a manager instance. -/
inductive MOp where
  | initOp (specs : List ProviderSpec)
  | toolsOp
  | healthOp
  | cleanupOp
deriving Repr

/-- State transition of one operation.  `initialize_clients` assigns fresh
identities to the survivors and overwrites `self.clients` (line 46) without
touching `self._active_clients`; if it raises, the assignment on line 46 is
never reached and the state is unchanged.  `health_check` opens only
probe-scoped handles and leaves the state unchanged. -/
def stepM (env : MEnv) (closeOk : Nat → Bool) (s : MState) : MOp → MState
  | .initOp specs =>
    if initRaises env.ctorOk specs then s
    else
      let k := survivorCount env.ctorOk specs
      { s with clients := List.range' s.nextId k, nextId := s.nextId + k }
  | .toolsOp => (getAllTools env s).2
  | .healthOp => s
  | .cleanupOp => (cleanupM closeOk s).1

/-- The trace of states reached after each operation of a sequence. -/
def runM (env : MEnv) (closeOk : Nat → Bool) (s : MState) : List MOp → List MState
  | [] => []
  | op :: ops =>
    let s' := stepM env closeOk s op
    s' :: runM env closeOk s' ops

/-- The per-step restriction under which the subset invariant is provable: an
`initialize_clients` call happens only while the active set is empty. -/
def initOnlyWhenInactive (s : MState) : MOp → Prop
  | .initOp _ => s.activeClients = []
  | _ => True

/-- The whole-sequence restriction: every `initialize_clients` call in the
sequence happens while the active set is empty (e.g. at most one
initialization, or re-initialization only after `cleanup`). -/
def safeSeq (env : MEnv) (closeOk : Nat → Bool) (s : MState) : List MOp → Prop
  | [] => True
  | op :: ops =>
    initOnlyWhenInactive s op ∧ safeSeq env closeOk (stepM env closeOk s op) ops

/-- The invariant of claim C4: the active set is a subset of the known set. -/
def activeSubKnown (s : MState) : Prop :=
  ∀ c ∈ s.activeClients, c ∈ s.clients

/-! ### Query orchestrator (`log_analyzer_agent.py`) -/

/-- Case-insensitive containment test used by the error classifier:
`keyword in error_msg.lower()`. -/
def containsSub (pat text : List Char) : Bool :=
  match text with
  | [] => pat.isEmpty
  | _ :: rest => pat.isPrefixOf text || containsSub pat rest

/-- `str.lower()` restricted to ASCII, which is all the classifier needs. -/
def lowerStr (s : String) : String := ⟨s.data.map Char.toLower⟩

/-- The canned remediation body for timeouts (lines 233-239). -/
def timeoutMsg : String :=
  "查询超时，可能的原因：\n• 查询范围过大，请缩小时间范围\n• 数据源响应缓慢，请稍后重试\n• 网络连接不稳定\n\n建议：尝试查询最近几小时或特定时间段的数据。"

/-- The canned remediation body for connection failures (lines 241-247). -/
def connectionMsg : String :=
  "数据源连接失败：\n• 请检查网络连接状态\n• 确认数据源配置正确\n• 验证访问权限设置\n\n如问题持续，请联系系统管理员。"

/-- The canned remediation body for permission/auth failures (lines 249-255). -/
def permissionMsg : String :=
  "权限验证失败：\n• 请检查访问凭据配置\n• 确认账户权限设置\n• 验证数据源访问策略\n\n请联系管理员检查权限配置。"

/-- The generic remediation body with the verbatim error detail (lines 257-265). -/
def genericMsg (errorMsg : String) : String :=
  "处理查询时遇到问题：\n• 错误详情：" ++ errorMsg ++
    "\n• 建议：请尝试重新表述查询或联系技术支持\n\n您可以尝试：\n• 使用更简单的查询条件\n• 缩小数据范围\n• 检查查询语法"

/-- `LogAnalyzerAgent._format_error_response` (lines 222-265). -/
def formatErrorResponse (errorMsg : String) : String :=
  let low := (lowerStr errorMsg).data
  if containsSub "timeout".data low then timeoutMsg
  else if containsSub "connection".data low then connectionMsg
  else if containsSub "permission".data low || containsSub "auth".data low then
    permissionMsg
  else genericMsg errorMsg

/-- Keyword test of `_preprocess_query` (line 176). -/
def hasQueryKeyword (q : String) : Bool :=
  containsSub "分析".data (lowerStr q).data || containsSub "统计".data (lowerStr q).data ||
    containsSub "查询".data (lowerStr q).data || containsSub "显示".data (lowerStr q).data

/-- Python `str.isspace`-style ASCII whitespace (the characters stripped by
`str.strip()` that can occur in these texts). -/
def pyWs (c : Char) : Bool :=
  c = ' ' || c = '\t' || c = '\n' || c = '\r' || c = '\x0b' || c = '\x0c'

/-- Python `str.strip()` on a character list. -/
def pyStripL (l : List Char) : List Char :=
  ((l.dropWhile pyWs).reverse.dropWhile pyWs).reverse

/-- Python `str.strip()`. -/
def pyStrip (s : String) : String := ⟨pyStripL s.data⟩

/-- `LogAnalyzerAgent._preprocess_query` (lines 162-179). -/
def preprocessQuery (query : String) : String :=
  let q := pyStrip query
  if hasQueryKeyword q then q else "请分析：" ++ q

/-- `LogAnalyzerAgent._postprocess_result` (lines 200-220). -/
def postprocessResult (result : String) : String :=
  if (pyStrip result).data.isEmpty then "分析完成，但未生成具体结果。请尝试更具体的查询条件。"
  else
    let r := pyStrip result
    if r.data.length < 10 then "分析结果过于简短，请尝试更详细的查询。" else r

/-- `LogAnalyzerAgent.analyze_query` (lines 127-160).  The agent itself is an
oracle mapping the preprocessed query to either a response text or a raised
exception's message.  With no agent, the guard on line 137 raises
`RuntimeError`; any exception from the agent call is absorbed and classified. -/
def analyzeQuery (agent : Option (String → Except String String)) (query : String) :
    Except String String :=
  match agent with
  | none => .error "智能体未初始化，请先调用 create_agent()"
  | some call =>
    match call (preprocessQuery query) with
    | .ok response => .ok (postprocessResult response)
    | .error e => .ok (formatErrorResponse e)

/-! ### Timestamp validation (`time_tools.py`) -/

/-- Python `str.split(sep)` on character lists (keeps empty pieces, one piece
more than the number of separators). -/
def splitCh (sep : Char) : List Char → List (List Char)
  | [] => [[]]
  | c :: rest =>
    if c = sep then [] :: splitCh sep rest
    else
      match splitCh sep rest with
      | p :: ps => (c :: p) :: ps
      | [] => [[c]]

/-- A parsed wall-clock timestamp (always interpreted as UTC by the tool). -/
structure DT where
  y : Nat
  m : Nat
  d : Nat
  h : Nat
  mi : Nat
  s : Nat
deriving DecidableEq, Repr

def isLeap (y : Nat) : Bool := y % 4 = 0 && (y % 100 ≠ 0 || y % 400 = 0)

def daysInMonth (y m : Nat) : Nat :=
  if m = 2 then (if isLeap y then 29 else 28)
  else if m = 4 || m = 6 || m = 9 || m = 11 then 30
  else 31

/-- Days since 1970-01-01 of a proleptic-Gregorian civil date (the arithmetic
underlying Python's `datetime` subtraction). -/
def daysFromCivil (y m d : Int) : Int :=
  let yAdj : Int := if m ≤ 2 then y - 1 else y
  let era : Int := Int.fdiv yAdj 400
  let yoe : Int := yAdj - era * 400
  let mShift : Int := if m > 2 then m - 3 else m + 9
  let doy : Int := Int.fdiv (153 * mShift + 2) 5 + d - 1
  let doe : Int := yoe * 365 + Int.fdiv yoe 4 - Int.fdiv yoe 100 + doy
  era * 146097 + doe - 719468

/-- Seconds since the epoch of a `DT`; `datetime` differences (`.days`) are
floor-divisions of this quantity. -/
def toSecs (dt : DT) : Int :=
  daysFromCivil dt.y dt.m dt.d * 86400 + dt.h * 3600 + dt.mi * 60 + dt.s

def digitVal (c : Char) : Nat := c.toNat - '0'.toNat

/-- CPython `_strptime` directive `%m` (regex `1[0-2]|0[1-9]`, the two-digit
alternatives). -/
def month2 : List Char → Option (Nat × List Char)
  | a :: b :: rest =>
    if a = '1' && ('0' ≤ b && b ≤ '2') then some (10 + digitVal b, rest)
    else if a = '0' && ('1' ≤ b && b ≤ '9') then some (digitVal b, rest)
    else none
  | _ => none

/-- CPython `_strptime` directive `%m`, one-digit alternative `[1-9]`. -/
def month1 : List Char → Option (Nat × List Char)
  | a :: rest => if '1' ≤ a && a ≤ '9' then some (digitVal a, rest) else none
  | _ => none

/-- CPython `_strptime` directive `%d` (regex `3[01]|[12]\d|0[1-9]`). -/
def day2 : List Char → Option (Nat × List Char)
  | a :: b :: rest =>
    if a = '3' && ('0' ≤ b && b ≤ '1') then some (30 + digitVal b, rest)
    else if ('1' ≤ a && a ≤ '2') && b.isDigit then
      some (10 * digitVal a + digitVal b, rest)
    else if a = '0' && ('1' ≤ b && b ≤ '9') then some (digitVal b, rest)
    else none
  | _ => none

/-- CPython `_strptime` directive `%H` (regex `2[0-3]|[0-1]\d`). -/
def hour2 : List Char → Option (Nat × List Char)
  | a :: b :: rest =>
    if a = '2' && ('0' ≤ b && b ≤ '3') then some (20 + digitVal b, rest)
    else if ('0' ≤ a && a ≤ '1') && b.isDigit then
      some (10 * digitVal a + digitVal b, rest)
    else none
  | _ => none

/-- CPython `_strptime` directives `%M`/`%S` (regex `[0-5]\d`). -/
def sixty2 : List Char → Option (Nat × List Char)
  | a :: b :: rest =>
    if ('0' ≤ a && a ≤ '5') && b.isDigit then
      some (10 * digitVal a + digitVal b, rest)
    else none
  | _ => none

/-- Single-digit fallback `\d` of `%H`/`%M`/`%S`. -/
def dig1 : List Char → Option (Nat × List Char)
  | a :: rest => if a.isDigit then some (digitVal a, rest) else none
  | _ => none

def expectCh (c : Char) : List Char → Option (List Char)
  | a :: rest => if a = c then some rest else none
  | _ => none

/-- The run of whitespace that the `\s+` in the compiled format regex
consumes (at least one character). -/
def wsRun1 (l : List Char) : Option (List Char) :=
  match l with
  | a :: rest => if pyWs a then some (rest.dropWhile pyWs) else none
  | _ => none

def parseSecPart (h mi : Nat) (l : List Char) : Option (Nat × Nat × Nat) :=
  (sixty2 l).bind (fun (s, r) => if r.isEmpty then some (h, mi, s) else none)
    <|> (dig1 l).bind (fun (s, r) => if r.isEmpty then some (h, mi, s) else none)

def parseMinPart (h : Nat) (l : List Char) : Option (Nat × Nat × Nat) :=
  (sixty2 l).bind (fun (mi, r) => (expectCh ':' r).bind (parseSecPart h mi))
    <|> (dig1 l).bind (fun (mi, r) => (expectCh ':' r).bind (parseSecPart h mi))

def parseTimePart (l : List Char) : Option (Nat × Nat × Nat) :=
  (hour2 l).bind (fun (h, r) => (expectCh ':' r).bind (parseMinPart h))
    <|> (dig1 l).bind (fun (h, r) => (expectCh ':' r).bind (parseMinPart h))

def parseDayPart (y m : Nat) (l : List Char) : Option DT :=
  let cont : Nat × List Char → Option DT := fun (d, r) =>
    ((wsRun1 r).bind parseTimePart).map fun (h, mi, s) => ⟨y, m, d, h, mi, s⟩
  (day2 l).bind cont <|> (month1 l).bind cont

def parseMonthPart (y : Nat) (l : List Char) : Option DT :=
  let cont : Nat × List Char → Option DT := fun (m, r) =>
    (expectCh '-' r).bind (parseDayPart y m)
  (month2 l).bind cont <|> (month1 l).bind cont

/-- `datetime.strptime(ts, "%Y-%m-%d %H:%M:%S")` followed by the `datetime`
constructor's range validation; `none` models the raised `ValueError` that
line 58 of `time_tools.py` catches.  The alternations and their order mirror
the sub-regexes CPython's `_strptime` builds for each directive, with the
longer alternative tried first and the parse anchored at both ends. -/
def parseTS (l : List Char) : Option DT :=
  match l with
  | c1 :: c2 :: c3 :: c4 :: rest =>
    if c1.isDigit && c2.isDigit && c3.isDigit && c4.isDigit then
      let y := 1000 * digitVal c1 + 100 * digitVal c2 + 10 * digitVal c3 + digitVal c4
      ((expectCh '-' rest).bind (parseMonthPart y)).bind fun dt =>
        if 1 ≤ dt.y && 1 ≤ dt.d && dt.d ≤ daysInMonth dt.y dt.m then some dt else none
    else none
  | _ => none

def pad2 (n : Nat) : String := if n < 10 then "0" ++ Nat.repr n else Nat.repr n

def pad4 (n : Nat) : String :=
  if n < 10 then "000" ++ Nat.repr n
  else if n < 100 then "00" ++ Nat.repr n
  else if n < 1000 then "0" ++ Nat.repr n
  else Nat.repr n

/-- `dt.strftime("%Y-%m-%d %H:%M:%S")`. -/
def formatDT (dt : DT) : String :=
  pad4 dt.y ++ "-" ++ pad2 dt.m ++ "-" ++ pad2 dt.d ++ " " ++ pad2 dt.h ++ ":" ++
    pad2 dt.mi ++ ":" ++ pad2 dt.s

/-- One entry of the `anomalies` list built on lines 72-92. -/
structure Anomaly where
  atype : String
  count : Option Nat
  spanDays : Option Int
  description : String
deriving DecidableEq, Repr

/-- The result dictionary of `validate_log_timestamps`. -/
structure TSResult where
  currentTime : String
  totalTimestamps : Nat
  futureTimestamps : List (String × Int)
  pastTimestamps : List String
  invalidTimestamps : List String
  timeRange : Option (String × String × Int)
  anomalies : List Anomaly
deriving DecidableEq, Repr

/-- Classification of one stripped entry into `future_timestamps` (with its
`days_in_future`), from the loop on lines 42-59. -/
def futureFn (nowS : Int) (e : List Char) : Option (String × Int) :=
  match parseTS e with
  | some dt =>
    if toSecs dt > nowS then some (⟨e⟩, Int.fdiv (toSecs dt - nowS) 86400) else none
  | none => none

/-- Classification of one stripped entry into `past_timestamps`. -/
def pastFn (nowS : Int) (e : List Char) : Option String :=
  match parseTS e with
  | some dt => if toSecs dt > nowS then none else some ⟨e⟩
  | none => none

/-- Classification of one stripped entry into `invalid_timestamps`. -/
def invalidFn (e : List Char) : Option String :=
  match parseTS e with
  | some _ => none
  | none => some ⟨e⟩

/-- Python's `min` over a nonempty datetime list (first minimum). -/
def minDT (d0 : DT) (rest : List DT) : DT :=
  rest.foldl (fun a b => if toSecs b < toSecs a then b else a) d0

/-- Python's `max` over a nonempty datetime list (first maximum). -/
def maxDT (d0 : DT) (rest : List DT) : DT :=
  rest.foldl (fun a b => if toSecs b > toSecs a then b else a) d0

/-- The anomaly report built on lines 71-92 from the three intermediate
results. -/
def anomaliesOf (futures : List (String × Int)) (invalids : List String)
    (timeRange : Option (String × String × Int)) : List Anomaly :=
  (if futures.isEmpty then [] else
    [⟨"future_timestamps", some futures.length, none,
      "发现未来时间戳，可能是系统时间配置错误或测试数据"⟩]) ++
  (if invalids.isEmpty then [] else
    [⟨"invalid_format", some invalids.length, none, "时间戳格式无效，无法解析"⟩]) ++
  (match timeRange with
   | some (_, _, sp) =>
     if sp > 365 then
       [⟨"large_time_span", none, some sp, "时间跨度超过一年，请确认数据范围是否正确"⟩]
     else []
   | none => [])

/-- `validate_log_timestamps` (`time_tools.py` lines 15-101), with the
current UTC time as an explicit parameter.  The outer `try` of the source can
only fire on the operations modelled totally here, so the error dictionary of
lines 96-101 is unreachable in the model. -/
def validateLogTimestamps (now : DT) (input : String) : TSResult :=
  let nowS := toSecs now
  let entries := (splitCh ',' input.data).map pyStripL
  let futures := entries.filterMap (futureFn nowS)
  let pasts := entries.filterMap (pastFn nowS)
  let invalids := entries.filterMap invalidFn
  let validDts := entries.filterMap parseTS
  let timeRange : Option (String × String × Int) :=
    match validDts with
    | [] => none
    | d0 :: rest =>
      let lo := minDT d0 rest
      let hi := maxDT d0 rest
      some (formatDT lo, formatDT hi, Int.fdiv (toSecs hi - toSecs lo) 86400)
  { currentTime := formatDT now ++ " UTC"
    totalTimestamps := entries.length
    futureTimestamps := futures
    pastTimestamps := pasts
    invalidTimestamps := invalids
    timeRange := timeRange
    anomalies := anomaliesOf futures invalids timeRange }

/-! ### Text normalization pipeline (`output_formatter.py`) — definitions -/

/-- Python `str.replace('\\\\', '\\')` (first step of `_basic_cleanup`):
left-to-right, non-overlapping. -/
def replDD : List Char → List Char
  | '\\' :: '\\' :: rest => '\\' :: replDD rest
  | c :: rest => c :: replDD rest
  | [] => []

/-- Character class of the Rich-markup tag pattern
`\[/?[a-zA-Z0-9_\s#:;,.-]+\]`. -/
def richClass (c : Char) : Bool :=
  c.isAlpha || c.isDigit || c = '_' || pyWs c || c = '#' || c = ':' || c = ';' ||
    c = ',' || c = '.' || c = '-'

/-- `re.sub(r'\[/?[a-zA-Z0-9_\s#:;,.-]+\]', '', text)`: at each position, an
opening bracket, an optional slash, a maximal nonempty class run and a
closing bracket are removed; otherwise the scan advances one character.
Fuel-driven so every function of the pipeline computes by kernel reduction;
the top-level call supplies `l.length`, which the one-character-per-step
consumption makes sufficient. -/
def richTagGo : Nat → List Char → List Char
  | 0, l => l
  | _ + 1, [] => []
  | fuel + 1, '[' :: rest =>
    let r1 := match rest with | '/' :: r => r | _ => rest
    let body := r1.takeWhile richClass
    let r2 := r1.dropWhile richClass
    if body.isEmpty then '[' :: richTagGo fuel rest
    else
      match r2 with
      | ']' :: r3 => richTagGo fuel r3
      | _ => '[' :: richTagGo fuel rest
  | fuel + 1, c :: rest => c :: richTagGo fuel rest

/-- `re.sub(r'\*\*([^*]+)\*\*', r'\1', text)`. -/
def boldGo : Nat → List Char → List Char
  | 0, l => l
  | _ + 1, [] => []
  | fuel + 1, '*' :: '*' :: rest =>
    let body := rest.takeWhile (· ≠ '*')
    let r2 := rest.dropWhile (· ≠ '*')
    if body.isEmpty then '*' :: boldGo fuel ('*' :: rest)
    else
      match r2 with
      | '*' :: '*' :: r3 => body ++ boldGo fuel r3
      | _ => '*' :: boldGo fuel ('*' :: rest)
  | fuel + 1, c :: rest => c :: boldGo fuel rest

/-- `re.sub(r'\*([^*]+)\*', r'\1', text)`. -/
def italGo : Nat → List Char → List Char
  | 0, l => l
  | _ + 1, [] => []
  | fuel + 1, '*' :: rest =>
    let body := rest.takeWhile (· ≠ '*')
    let r2 := rest.dropWhile (· ≠ '*')
    if body.isEmpty then '*' :: italGo fuel rest
    else
      match r2 with
      | '*' :: r3 => body ++ italGo fuel r3
      | _ => '*' :: italGo fuel rest
  | fuel + 1, c :: rest => c :: italGo fuel rest

/-- `re.sub(r'^#+\s*', '', text, flags=re.MULTILINE)`: the Boolean argument
tracks whether the current position is a line start (string start or right
after a newline); `\s` may consume newlines, so the flag after a match
depends on the last consumed character. -/
def headingGo : Nat → Bool → List Char → List Char
  | 0, _, l => l
  | _ + 1, _, [] => []
  | fuel + 1, atStart, c :: rest =>
    if atStart && c = '#' then
      let r1 := (c :: rest).dropWhile (· = '#')
      let ws := r1.takeWhile pyWs
      let r2 := r1.dropWhile pyWs
      headingGo fuel (ws.getLast? == some '\n') r2
    else c :: headingGo fuel (c = '\n') rest

/-- `re.sub(r'```[a-zA-Z]*\n?', '', text)`. -/
def fence1Go : Nat → List Char → List Char
  | 0, l => l
  | _ + 1, [] => []
  | fuel + 1, '`' :: '`' :: '`' :: rest =>
    let r1 := rest.dropWhile Char.isAlpha
    let r2 := match r1 with | '\n' :: r => r | _ => r1
    fence1Go fuel r2
  | fuel + 1, c :: rest => c :: fence1Go fuel rest

/-- `re.sub(r'```', '', text)`. -/
def fence2Go : List Char → List Char
  | '`' :: '`' :: '`' :: rest => fence2Go rest
  | c :: rest => c :: fence2Go rest
  | [] => []

/-- `re.sub(r'`([^`]+)`', r'\1', text)`. -/
def inlineGo : Nat → List Char → List Char
  | 0, l => l
  | _ + 1, [] => []
  | fuel + 1, '`' :: rest =>
    let body := rest.takeWhile (· ≠ '`')
    let r2 := rest.dropWhile (· ≠ '`')
    if body.isEmpty then '`' :: inlineGo fuel rest
    else
      match r2 with
      | '`' :: r3 => body ++ inlineGo fuel r3
      | _ => '`' :: inlineGo fuel rest
  | fuel + 1, c :: rest => c :: inlineGo fuel rest

/-- `re.sub(r'\\n', '\n', text)`. -/
def escN : List Char → List Char
  | '\\' :: 'n' :: rest => '\n' :: escN rest
  | c :: rest => c :: escN rest
  | [] => []

/-- `re.sub(r'\\t', '    ', text)`. -/
def escT : List Char → List Char
  | '\\' :: 't' :: rest => ' ' :: ' ' :: ' ' :: ' ' :: escT rest
  | c :: rest => c :: escT rest
  | [] => []

/-- `re.sub(r'\\r', '\r', text)`. -/
def escR : List Char → List Char
  | '\\' :: 'r' :: rest => '\r' :: escR rest
  | c :: rest => c :: escR rest
  | [] => []

/-- `re.sub(r'\\"', '"', text)`. -/
def escQ : List Char → List Char
  | '\\' :: '"' :: rest => '"' :: escQ rest
  | c :: rest => c :: escQ rest
  | [] => []

/-- `re.sub(r"\\'", "'", text)`. -/
def escA : List Char → List Char
  | '\\' :: '\'' :: rest => '\'' :: escA rest
  | c :: rest => c :: escA rest
  | [] => []

/-- `OutputFormatter._basic_cleanup` (lines 79-94): the double-backslash
replace followed by the twelve cleanup patterns in declaration order.  All
patterns are statically valid, so the per-pattern `except re.error` never
fires. -/
def basicCleanup (l : List Char) : List Char :=
  let l0 := replDD l
  let l1 := richTagGo l0.length l0
  let l2 := boldGo l1.length l1
  let l3 := italGo l2.length l2
  let l4 := headingGo l3.length true l3
  let l5 := fence1Go l4.length l4
  let l6 := fence2Go l5
  let l7 := inlineGo l6.length l6
  escA (escQ (escR (escT (escN l7))))

/-- `'\n'.join` on character-list lines. -/
def joinNL : List (List Char) → List Char
  | [] => []
  | [p] => p
  | p :: ps => p ++ '\n' :: joinNL ps

/-- `sep.join` for a general separator (used for `' | '.join(parts)`). -/
def joinSep (sep : List Char) : List (List Char) → List Char
  | [] => []
  | [p] => p
  | p :: ps => p ++ sep ++ joinSep sep ps

/-- The `section_indicators` list of the constructor (lines 42-45). -/
def sectionIndicators : List (List Char) :=
  ["分析摘要".data, "详细数据".data, "关键发现".data, "统计结果".data,
   "趋势分析".data, "异常检测".data, "建议".data, "总结".data, "结论".data]

/-- `any(indicator in line for indicator in self.section_indicators)`. -/
def hasIndicator (l : List Char) : Bool :=
  sectionIndicators.any fun ind => containsSub ind l

/-- `line.rstrip('：')`. -/
def rstripFW (l : List Char) : List Char := (l.reverse.dropWhile (· = '：')).reverse

/-- `line.endswith(':')`. -/
def endsWithColon (l : List Char) : Bool := l.getLast? == some ':'

/-- The loop of `OutputFormatter._process_structured_content` (lines 96-127);
the accumulator is kept reversed so that `processed_lines[-1]` is its head. -/
def structuredGo : List (List Char) → List (List Char) → List (List Char)
  | [], accRev => accRev.reverse
  | line :: rest, accRev =>
    let l := pyStripL line
    if l.isEmpty then structuredGo rest ([] :: accRev)
    else if 2 ≤ l.count '|' then
      let parts := ((splitCh '|' l).map pyStripL).filter (fun p => !p.isEmpty)
      if parts.isEmpty then structuredGo rest accRev
      else structuredGo rest ((' ' :: ' ' :: joinSep " | ".data parts) :: accRev)
    else if hasIndicator l then
      let accRev2 :=
        match accRev with
        | prev :: _ => if prev.isEmpty then accRev else [] :: accRev
        | [] => accRev
      let l2 := if endsWithColon l then l else rstripFW l ++ [':']
      structuredGo rest (l2 :: accRev2)
    else structuredGo rest (l :: accRev)

/-- `OutputFormatter._process_structured_content`. -/
def processStructuredContent (l : List Char) : List Char :=
  joinNL (structuredGo (splitCh '\n' l) [])

/-- `OutputFormatter._format_line` (lines 163-183): canonicalize bullet
markers, numbered-list markers, stray leading quote/pipe marks, and the
spacing of the first colon-separated key/value pair. -/
def formatLine (l : List Char) : List Char :=
  let la :=
    match l with
    | c :: rest =>
      if c = '•' || c = '-' || c = '*' || c = '+' then
        '•' :: ' ' :: rest.dropWhile pyWs
      else l
    | [] => l
  let lb :=
    let ds := la.takeWhile Char.isDigit
    if ds.isEmpty then la
    else
      match la.dropWhile Char.isDigit with
      | c :: r2 => if c = '.' || c = ')' then ds ++ '.' :: ' ' :: r2.dropWhile pyWs else la
      | [] => la
  let lc :=
    let qs := lb.takeWhile fun c => c = '>' || c = '|'
    if qs.isEmpty then lb
    else (lb.dropWhile fun c => c = '>' || c = '|').dropWhile pyWs
  if lc.contains ':' && !endsWithColon lc then
    let key := lc.takeWhile (· ≠ ':')
    let value := (lc.dropWhile (· ≠ ':')).tail
    let v := pyStripL value
    if v.isEmpty then lc else pyStripL key ++ ':' :: ' ' :: v
  else lc

/-- `formatted_line.startswith('• ') or re.match(r'^\d+\.\s', formatted_line)`. -/
def isListItem (l : List Char) : Bool :=
  match l with
  | '•' :: ' ' :: _ => true
  | _ =>
    let ds := l.takeWhile Char.isDigit
    !ds.isEmpty &&
      (match l.dropWhile Char.isDigit with
       | '.' :: c :: _ => pyWs c
       | _ => false)

/-- The loop of `OutputFormatter._process_lines` (lines 129-161), carrying
`prev_line_empty`, `in_list` and the reversed accumulator. -/
def processLinesGo : List (List Char) → Bool → Bool → List (List Char) → List (List Char)
  | [], _, _, accRev => accRev.reverse
  | line :: rest, prevEmpty, inList, accRev =>
    let l := pyStripL line
    if l.isEmpty then
      let accRev2 := if !prevEmpty && !accRev.isEmpty then [] :: accRev else accRev
      processLinesGo rest true false accRev2
    else
      let fl := formatLine l
      let isL := isListItem fl
      let needBlank := isL && !inList &&
        (match accRev with | h :: _ => !h.isEmpty | [] => false)
      let accRev2 := if needBlank then [] :: accRev else accRev
      processLinesGo rest false isL (fl :: accRev2)

/-- `OutputFormatter._process_lines`. -/
def processLines (l : List Char) : List Char :=
  joinNL (processLinesGo (splitCh '\n' l) false false [])

/-- The pattern `'\n\n\n'` of the collapse loop. -/
def tripleNL : List Char := ['\n', '\n', '\n']

/-- `'\n\n\n' in text`. -/
def containsTriple (l : List Char) : Bool := containsSub tripleNL l

/-- One scan of `text.replace('\n\n\n', '\n\n')` (left-to-right,
non-overlapping): wherever the pattern starts, it is replaced and the scan
resumes after it. -/
def replTripleGo : Nat → List Char → List Char
  | 0, l => l
  | _ + 1, [] => []
  | fuel + 1, c :: rest =>
    if tripleNL.isPrefixOf (c :: rest) then '\n' :: '\n' :: replTripleGo fuel (rest.drop 2)
    else c :: replTripleGo fuel rest

def replaceTriple (l : List Char) : List Char := replTripleGo l.length l

/-- The `while '\n\n\n' in text:` loop of `_final_cleanup` (lines 188-189);
every iteration shrinks the text, so `l.length` rounds of fuel reach the
fixed point. -/
def collapseGo : Nat → List Char → List Char
  | 0, l => l
  | fuel + 1, l => if containsTriple l then collapseGo fuel (replaceTriple l) else l

def collapseNewlines (l : List Char) : List Char := collapseGo l.length l

/-- The insertion condition of `_ensure_paragraph_spacing` (lines 211-217) on
a line and its successor. -/
def espCond (x y : List Char) : Bool :=
  !x.isEmpty && !y.isEmpty && !(x.head? == some '•') && !(y.head? == some '•') &&
    (endsWithColon x || hasIndicator x)

/-- The loop of `_ensure_paragraph_spacing` (lines 204-220): a blank line is
inserted after line `i` when the condition on lines `i`, `i+1` holds. -/
def espGo : List (List Char) → List (List Char)
  | x :: y :: rest => if espCond x y then x :: [] :: espGo (y :: rest) else x :: espGo (y :: rest)
  | l => l

/-- `OutputFormatter._ensure_paragraph_spacing`. -/
def ensureParagraphSpacing (l : List Char) : List Char := joinNL (espGo (splitCh '\n' l))

/-- `re.sub(r'(\d+)\s*%', r'\1%', text)`. -/
def pctGo : Nat → List Char → List Char
  | 0, l => l
  | _ + 1, [] => []
  | fuel + 1, c :: rest =>
    if c.isDigit then
      match ((c :: rest).dropWhile Char.isDigit).dropWhile pyWs with
      | c2 :: r3 =>
        if c2 = '%' then (c :: rest).takeWhile Char.isDigit ++ '%' :: pctGo fuel r3
        else c :: pctGo fuel rest
      | [] => c :: pctGo fuel rest
    else c :: pctGo fuel rest

/-- The alternation `MB|GB|KB|ms|s`, tried in declaration order. -/
def unitMatch : List Char → Option (List Char × List Char)
  | 'M' :: 'B' :: r => some (['M', 'B'], r)
  | 'G' :: 'B' :: r => some (['G', 'B'], r)
  | 'K' :: 'B' :: r => some (['K', 'B'], r)
  | 'm' :: 's' :: r => some (['m', 's'], r)
  | 's' :: r => some (['s'], r)
  | _ => none

/-- `re.sub(r'(\d+)\s*(MB|GB|KB|ms|s)', r'\1\2', text)`. -/
def unitGo : Nat → List Char → List Char
  | 0, l => l
  | _ + 1, [] => []
  | fuel + 1, c :: rest =>
    if c.isDigit then
      let r1 := (c :: rest).dropWhile Char.isDigit
      let r2 := r1.dropWhile pyWs
      match unitMatch r2 with
      | some (u, r3) => (c :: rest).takeWhile Char.isDigit ++ u ++ unitGo fuel r3
      | none => c :: unitGo fuel rest
    else c :: unitGo fuel rest

/-- Exactly `n` digits. -/
def digitsN : Nat → List Char → Option (List Char × List Char)
  | 0, l => some ([], l)
  | n + 1, c :: rest =>
    if c.isDigit then (digitsN n rest).map (fun (ds, r) => (c :: ds, r)) else none
  | _ + 1, [] => none

/-- One match attempt of
`(\d{4})-(\d{2})-(\d{2})\s+(\d{2}):(\d{2}):(\d{2})` with its replacement
`\1-\2-\3 \4:\5:\6`. -/
def tsMatch (l : List Char) : Option (List Char × List Char) := do
  let (yr, r1) ← digitsN 4 l
  let r2 ← expectCh '-' r1
  let (mo, r3) ← digitsN 2 r2
  let r4 ← expectCh '-' r3
  let (dy, r5) ← digitsN 2 r4
  let r6 ← wsRun1 r5
  let (hr, r7) ← digitsN 2 r6
  let r8 ← expectCh ':' r7
  let (mn, r9) ← digitsN 2 r8
  let r10 ← expectCh ':' r9
  let (sc, r11) ← digitsN 2 r10
  pure (yr ++ '-' :: mo ++ '-' :: dy ++ ' ' :: hr ++ ':' :: mn ++ ':' :: sc, r11)

/-- `re.sub` of the timestamp-spacing pattern. -/
def tsGo : Nat → List Char → List Char
  | 0, l => l
  | _ + 1, [] => []
  | fuel + 1, c :: rest =>
    match tsMatch (c :: rest) with
    | some (chunk, r) => chunk ++ tsGo fuel r
    | none => c :: tsGo fuel rest

/-- `re.sub(r':([^\s])', r': \1', text)`. -/
def colGo : Nat → List Char → List Char
  | 0, l => l
  | _ + 1, [] => []
  | fuel + 1, c :: rest =>
    if c = ':' then
      match rest with
      | c2 :: rest2 =>
        if !pyWs c2 then ':' :: ' ' :: c2 :: colGo fuel rest2
        else ':' :: colGo fuel rest
      | [] => [':']
    else c :: colGo fuel rest

/-- `OutputFormatter._fix_common_issues` (lines 222-235). -/
def fixCommonIssues (l : List Char) : List Char :=
  let l1 := pctGo l.length l
  let l2 := unitGo l1.length l1
  let l3 := tsGo l2.length l2
  colGo l3.length l3

/-- `OutputFormatter._final_cleanup` (lines 185-200). -/
def finalCleanup (l : List Char) : List Char :=
  fixCommonIssues (ensureParagraphSpacing (pyStripL (collapseNewlines l)))

/-- `OutputFormatter.format_result` (lines 47-77).  All pipeline stages are
total functions of the input string, so the `except` fallback of lines 75-77
is unreachable in the model. -/
def formatResultL (l : List Char) : List Char :=
  if (pyStripL l).isEmpty then "未获取到分析结果".data
  else
    let cleaned := finalCleanup (processLines (processStructuredContent (basicCleanup l)))
    if (pyStripL cleaned).isEmpty then "分析完成，但未生成具体结果".data else cleaned

def formatResult (s : String) : String := ⟨formatResultL s.data⟩

/-! ### Proof machinery: runs of newlines -/

/-- Scanning automaton: `noTripleAux k l` holds when `l`, scanned with an
initial run of `k` pending newlines, never reaches a run of three. -/
def noTripleAux : Nat → List Char → Bool
  | _, [] => true
  | k, c :: rest =>
    if c = '\n' then decide (k + 1 < 3) && noTripleAux (k + 1) rest
    else noTripleAux 0 rest

/-- Automaton on the pieces of a split: `k` is the pending newline-run when
entering the separator after the current head piece. -/
def okP : Nat → List (List Char) → Bool
  | _, [] => true
  | _, [_] => true
  | k, p :: q :: ps =>
    decide ((if p.isEmpty then k else 0) + 1 < 3) &&
      okP ((if p.isEmpty then k else 0) + 1) (q :: ps)

/-- `true` when the string (as a char list) does not begin with a
Python-whitespace character. -/
def headNotWs (l : List Char) : Bool :=
  match l.head? with
  | some c => !pyWs c
  | none => true

/-- `true` when the string (as a char list) does not end with a
Python-whitespace character. -/
def lastNotWs (l : List Char) : Bool :=
  match l.getLast? with
  | some c => !pyWs c
  | none => true

/-! ### Theorems -/

/-! ### Theorems for the aggregator and the orchestrator -/

theorem initializeClients_ok_of_names (ctorOk : ProviderSpec → Bool) :
    ∀ specs : List ProviderSpec, (∀ cfg ∈ specs, cfg.name ≠ none) →
      initializeClients ctorOk specs = .ok (specs.filterMap (createClient ctorOk)) := by
  intro specs h
  induction specs with
  | nil => rfl
  | cons config rest ih =>
    have hname : config.name ≠ none := h config (by simp)
    have hrest := ih (fun cfg hc => h cfg (by simp [hc]))
    cases hcc : createClient ctorOk config with
    | none => simp [initializeClients, hcc, List.filterMap_cons, hrest]
    | some client =>
      cases hn : config.name with
      | none => exact absurd hn hname
      | some n =>
        simp [initializeClients, hcc, hn, List.filterMap_cons, hrest, Except.map]

theorem initializeClients_error_malformed (ctorOk : ProviderSpec → Bool) :
    ∀ specs : List ProviderSpec, ∀ e,
      initializeClients ctorOk specs = .error e → ∃ cfg ∈ specs, malformedSpec cfg := by
  intro specs
  induction specs with
  | nil => intro e h; simp [initializeClients] at h
  | cons config rest ih =>
    intro e h
    cases hcc : createClient ctorOk config with
    | none =>
      rw [initializeClients, hcc] at h
      obtain ⟨cfg, hm, hmal⟩ := ih e h
      exact ⟨cfg, by simp [hm], hmal⟩
    | some client =>
      rw [initializeClients, hcc] at h
      cases hn : config.name with
      | none => exact ⟨config, by simp, .inl hn⟩
      | some n =>
        rw [hn] at h
        cases hr : initializeClients ctorOk rest with
        | ok l => rw [hr] at h; simp [Except.map] at h
        | error eRest =>
          obtain ⟨cfg, hm, hmal⟩ := ih eRest hr
          exact ⟨cfg, by simp [hm], hmal⟩

/-- Claim C2: for every provider-spec list, `initialize_clients` skips every
spec whose client construction fails without aborting the batch, returns
exactly the successfully constructed connections in input order (whenever it
does not raise, in particular whenever every entry carries a name), and it can
only raise when the input itself is malformed. -/
theorem c2_initialize_partial_failure (ctorOk : ProviderSpec → Bool)
    (specs : List ProviderSpec) :
    ((∀ cfg ∈ specs, cfg.name ≠ none) →
      initializeClients ctorOk specs = .ok (specs.filterMap (createClient ctorOk))) ∧
    (∀ e, initializeClients ctorOk specs = .error e → ∃ cfg ∈ specs, malformedSpec cfg) :=
  ⟨fun h => initializeClients_ok_of_names ctorOk specs h,
   fun e he => initializeClients_error_malformed ctorOk specs e he⟩

/-- Witness for C2: a concrete batch where the middle spec's construction
fails: the two survivors are returned in order and nothing is raised. -/
theorem c2_initialize_partial_failure_witness :
    initializeClients (fun cfg => cfg.name != some "bad")
      [⟨some "a", some "cmd-a", [], []⟩, ⟨some "bad", some "cmd-b", [], []⟩,
       ⟨some "c", some "cmd-c", [], []⟩] =
      .ok [⟨some "a", some "cmd-a", [], []⟩, ⟨some "c", some "cmd-c", [], []⟩] := by
  have h := (c2_initialize_partial_failure (fun cfg => cfg.name != some "bad")
    [⟨some "a", some "cmd-a", [], []⟩, ⟨some "bad", some "cmd-b", [], []⟩,
     ⟨some "c", some "cmd-c", [], []⟩]).1 (by decide)
  rw [h]
  rfl

/-- Claim C3: `cleanup` attempts to release every active connection in
activation order whatever the close-failure oracle says (each release is
independently guarded), leaves all three collections empty, is idempotent,
and is safe on a never-initialized manager. -/
theorem c3_cleanup_guarded_idempotent (closeOk : Nat → Bool) (s : MState) :
    ((cleanupM closeOk s).2.map Prod.fst = s.activeClients) ∧
    ((cleanupM closeOk s).1.activeClients = [] ∧ (cleanupM closeOk s).1.clients = [] ∧
      (cleanupM closeOk s).1.tools = []) ∧
    (cleanupM closeOk (cleanupM closeOk s).1 =
      ((cleanupM closeOk s).1, [])) ∧
    (cleanupM closeOk initialMState = (initialMState, [])) := by
  refine ⟨?_, ⟨rfl, rfl, rfl⟩, rfl, rfl⟩
  show (cleanupGo closeOk s.activeClients).map Prod.fst = s.activeClients
  induction s.activeClients with
  | nil => rfl
  | cons c cs ih => simp [cleanupGo, ih]

theorem getAllToolsGo_sub (env : MEnv) (known : List Nat) :
    ∀ (cs active acc : List Nat), (∀ x ∈ active, x ∈ known) → (∀ x ∈ cs, x ∈ known) →
      ∀ x ∈ (getAllToolsGo env cs active acc).2, x ∈ known := by
  intro cs
  induction cs with
  | nil => intro active acc ha _ x hx; exact ha x hx
  | cons d ds ih =>
    intro active acc ha hcs x hx
    have hd : d ∈ known := hcs d (by simp)
    have hds : ∀ y ∈ ds, y ∈ known := fun y hy => hcs y (by simp [hy])
    rw [getAllToolsGo] at hx
    split at hx
    · cases hls : env.listRes d with
      | some ts => rw [hls] at hx; exact ih active (acc ++ ts) ha hds x hx
      | none => rw [hls] at hx; exact ih active acc ha hds x hx
    · split at hx
      · have ha' : ∀ y ∈ active ++ [d], y ∈ known := by
          intro y hy
          rcases List.mem_append.1 hy with h | h
          · exact ha y h
          · simp only [List.mem_singleton] at h
            exact h ▸ hd
        cases hls : env.listRes d with
        | some ts => rw [hls] at hx; exact ih (active ++ [d]) (acc ++ ts) ha' hds x hx
        | none => rw [hls] at hx; exact ih (active ++ [d]) acc ha' hds x hx
      · exact ih active acc ha hds x hx

theorem activeSubKnown_step (env : MEnv) (closeOk : Nat → Bool) (s : MState) (op : MOp)
    (hinv : activeSubKnown s) (hinit : initOnlyWhenInactive s op) :
    activeSubKnown (stepM env closeOk s op) := by
  cases op with
  | initOp specs =>
    have hempty : s.activeClients = [] := hinit
    by_cases hr : initRaises env.ctorOk specs = true
    · simpa [stepM, hr] using hinv
    · intro c hc
      simp only [stepM, hr, if_false, Bool.not_eq_true] at hc ⊢
      rw [hempty] at hc
      simp at hc
  | toolsOp =>
    intro c hc
    simp only [stepM, getAllTools] at hc
    exact getAllToolsGo_sub env s.clients s.clients s.activeClients [] hinv
      (fun x hx => hx) c hc
  | healthOp => exact hinv
  | cleanupOp => intro c hc; simp [stepM, cleanupM] at hc

/-- Claim C4 (amended): along every operation sequence in which each
`initialize_clients` call is made while the active set is empty, the active
set stays a subset of the known set after every operation. -/
theorem c4_active_subset_known (env : MEnv) (closeOk : Nat → Bool) :
    ∀ (ops : List MOp) (s : MState), activeSubKnown s → safeSeq env closeOk s ops →
      ∀ s' ∈ runM env closeOk s ops, activeSubKnown s' := by
  intro ops
  induction ops with
  | nil => intro s _ _ s' h; simp [runM] at h
  | cons op rest ih =>
    intro s hinv hsafe s' hs'
    obtain ⟨hinit, hrest⟩ := hsafe
    have hstep := activeSubKnown_step env closeOk s op hinv hinit
    rw [runM] at hs'
    simp only [List.mem_cons] at hs'
    rcases hs' with h | h
    · exact h ▸ hstep
    · exact ih (stepM env closeOk s op) hstep hrest s' h

/-- Witness for C4 (amended): a concrete safe sequence (initialize, aggregate
tools, clean up, re-initialize) keeps the invariant at every step. -/
theorem c4_active_subset_known_witness :
    activeSubKnown
      (stepM ⟨fun _ => true, fun _ => true, fun _ => some [7], fun _ => true⟩
        (fun _ => true)
        (stepM ⟨fun _ => true, fun _ => true, fun _ => some [7], fun _ => true⟩
          (fun _ => true)
          (stepM ⟨fun _ => true, fun _ => true, fun _ => some [7], fun _ => true⟩
            (fun _ => true)
            (stepM ⟨fun _ => true, fun _ => true, fun _ => some [7], fun _ => true⟩
              (fun _ => true) initialMState
              (.initOp [⟨some "a", some "cmd", [], []⟩]))
            .toolsOp)
          .cleanupOp)
        (.initOp [⟨some "a", some "cmd", [], []⟩])) := by
  have h := c4_active_subset_known
    ⟨fun _ => true, fun _ => true, fun _ => some [7], fun _ => true⟩ (fun _ => true)
    [.initOp [⟨some "a", some "cmd", [], []⟩], .toolsOp, .cleanupOp,
     .initOp [⟨some "a", some "cmd", [], []⟩]] initialMState
  refine h ?_ ?_ _ ?_
  · intro c hc; simp [initialMState] at hc
  · simp only [safeSeq, initOnlyWhenInactive]
    refine ⟨rfl, trivial, trivial, by decide, trivial⟩
  · simp only [runM, List.mem_cons]
    exact .inr (.inr (.inr (.inl trivial)))

/-- Counterexample for C4 as stated: calling `initialize_clients` again after
`get_all_tools` (without `cleanup`) leaves the old connection in the active
set but replaces the known set, so the active set is no longer a subset of
the known set. -/
theorem c4_counterexample :
    ¬ activeSubKnown
      (stepM ⟨fun _ => true, fun _ => true, fun _ => some [7], fun _ => true⟩
        (fun _ => true)
        (stepM ⟨fun _ => true, fun _ => true, fun _ => some [7], fun _ => true⟩
          (fun _ => true)
          (stepM ⟨fun _ => true, fun _ => true, fun _ => some [7], fun _ => true⟩
            (fun _ => true) initialMState (.initOp [⟨some "a", some "cmd", [], []⟩]))
          .toolsOp)
        (.initOp [])) := by
  intro h
  have h0 := h 0
  revert h0
  decide

theorem healthCheckGo_get? (env : MEnv) :
    ∀ (cs : List Nat) (i j : Nat),
      (healthCheckGo env i cs).get? j =
        (cs.get? j).map fun c => ("client_" ++ Nat.repr (i + j), env.probeOk c) := by
  intro cs
  induction cs with
  | nil => intro i j; simp [healthCheckGo]
  | cons c rest ih =>
    intro i j
    cases j with
    | zero => simp [healthCheckGo]
    | succ j' =>
      simp only [healthCheckGo, List.get?_cons_succ]
      rw [ih (i + 1) j']
      have harith : i + 1 + j' = i + (j' + 1) := by omega
      rw [harith]

theorem healthCheckGo_length (env : MEnv) :
    ∀ (cs : List Nat) (i : Nat), (healthCheckGo env i cs).length = cs.length := by
  intro cs
  induction cs with
  | nil => intro i; rfl
  | cons c rest ih => intro i; simp [healthCheckGo, ih]

/-- Claim C6: `health_check` returns one entry per known connection, in index
order, entry `i` holding the key `client_i` and exactly the outcome of the
probe of connection `i` (so one probe's failure cannot touch another entry),
and the probe leaves the manager's state — in particular the active set and
the tool cache — unchanged. -/
theorem c6_health_check_frame (env : MEnv) (closeOk : Nat → Bool) (s : MState) :
    ((healthCheck env s).length = s.clients.length) ∧
    (∀ j, (healthCheck env s).get? j =
      (s.clients.get? j).map fun c => ("client_" ++ Nat.repr j, env.probeOk c)) ∧
    stepM env closeOk s .healthOp = s := by
  refine ⟨?_, ?_, rfl⟩
  · exact healthCheckGo_length env s.clients 0
  · intro j
    have h := healthCheckGo_get? env s.clients 0 j
    simpa using h

/-- Claim C7: on an initialized agent, a raised exception never propagates out
of `analyze_query`; the reply is one of the four canned remediation bodies,
selected by case-insensitive substring tests on the exception text, and the
generic body carries the error detail verbatim. -/
theorem c7_error_classification (call : String → Except String String)
    (query : String) (e : String) (hraise : call (preprocessQuery query) = .error e) :
    analyzeQuery (some call) query = .ok (formatErrorResponse e) ∧
    (formatErrorResponse e = timeoutMsg ∨ formatErrorResponse e = connectionMsg ∨
      formatErrorResponse e = permissionMsg ∨ formatErrorResponse e = genericMsg e) ∧
    (containsSub "timeout".data (lowerStr e).data = true →
      formatErrorResponse e = timeoutMsg) ∧
    (containsSub "timeout".data (lowerStr e).data = false →
      containsSub "connection".data (lowerStr e).data = true →
      formatErrorResponse e = connectionMsg) ∧
    (containsSub "timeout".data (lowerStr e).data = false →
      containsSub "connection".data (lowerStr e).data = false →
      (containsSub "permission".data (lowerStr e).data ||
        containsSub "auth".data (lowerStr e).data) = true →
      formatErrorResponse e = permissionMsg) ∧
    (containsSub "timeout".data (lowerStr e).data = false →
      containsSub "connection".data (lowerStr e).data = false →
      (containsSub "permission".data (lowerStr e).data ||
        containsSub "auth".data (lowerStr e).data) = false →
      formatErrorResponse e = genericMsg e ∧ e.data <:+: (genericMsg e).data) := by
  refine ⟨by simp [analyzeQuery, hraise], ?_, ?_, ?_, ?_, ?_⟩
  · by_cases h1 : containsSub "timeout".data (lowerStr e).data = true
    · exact .inl (by simp [formatErrorResponse, h1])
    · by_cases h2 : containsSub "connection".data (lowerStr e).data = true
      · exact .inr (.inl (by simp [formatErrorResponse, h1, h2]))
      · by_cases h3 : (containsSub "permission".data (lowerStr e).data ||
          containsSub "auth".data (lowerStr e).data) = true
        · exact .inr (.inr (.inl (by simp [formatErrorResponse, h1, h2, h3])))
        · refine .inr (.inr (.inr ?_))
          simp only [Bool.not_eq_true] at h1 h2 h3
          simp [formatErrorResponse, h1, h2, h3]
  · intro h; simp [formatErrorResponse, h]
  · intro h1 h2; simp [formatErrorResponse, h1, h2]
  · intro h1 h2 h3; simp [formatErrorResponse, h1, h2, h3]
  · intro h1 h2 h3
    refine ⟨by simp [formatErrorResponse, h1, h2, h3], ?_⟩
    show e.data <:+: ("处理查询时遇到问题：\n• 错误详情：" ++ e ++
      "\n• 建议：请尝试重新表述查询或联系技术支持\n\n您可以尝试：\n• 使用更简单的查询条件\n• 缩小数据范围\n• 检查查询语法").data
    refine ⟨"处理查询时遇到问题：\n• 错误详情：".data,
      "\n• 建议：请尝试重新表述查询或联系技术支持\n\n您可以尝试：\n• 使用更简单的查询条件\n• 缩小数据范围\n• 检查查询语法".data, ?_⟩
    simp [String.data_append]

/-- Witness for C7: an agent raising a permission error yields the canned
permission body. -/
theorem c7_error_classification_witness :
    analyzeQuery (some fun _ => .error "Permission denied by server") "查询日志" =
      .ok permissionMsg := by
  have h := c7_error_classification (fun _ => .error "Permission denied by server")
    "查询日志" "Permission denied by server" rfl
  rw [h.1, (h.2.2.2.2.1 (by decide) (by decide) (by decide))]

/-! ### Theorems for the timestamp validator -/

theorem lenPartition (nowS : Int) :
    ∀ es : List (List Char),
      es.length = (es.filterMap (futureFn nowS)).length +
        (es.filterMap (pastFn nowS)).length + (es.filterMap invalidFn).length := by
  intro es
  induction es with
  | nil => rfl
  | cons e rest ih =>
    cases hp : parseTS e with
    | none =>
      simp only [List.filterMap_cons, futureFn, pastFn, invalidFn, hp, List.length_cons]
      omega
    | some dt =>
      by_cases hgt : toSecs dt > nowS
      · simp only [List.filterMap_cons, futureFn, pastFn, invalidFn, hp, if_pos hgt,
          List.length_cons]
        omega
      · simp only [List.filterMap_cons, futureFn, pastFn, invalidFn, hp, if_neg hgt,
          List.length_cons]
        omega

theorem mem_anomaliesOf_future (futures : List (String × Int)) (invalids : List String)
    (timeRange : Option (String × String × Int)) (h : futures ≠ []) :
    (⟨"future_timestamps", some futures.length, none,
      "发现未来时间戳，可能是系统时间配置错误或测试数据"⟩ : Anomaly) ∈
      anomaliesOf futures invalids timeRange := by
  unfold anomaliesOf
  have : futures.isEmpty = false := by simpa using h
  rw [this]
  simp

theorem mem_anomaliesOf_invalid (futures : List (String × Int)) (invalids : List String)
    (timeRange : Option (String × String × Int)) (h : invalids ≠ []) :
    (⟨"invalid_format", some invalids.length, none, "时间戳格式无效，无法解析"⟩ : Anomaly) ∈
      anomaliesOf futures invalids timeRange := by
  unfold anomaliesOf
  have : invalids.isEmpty = false := by simpa using h
  rw [this]
  simp

theorem mem_anomaliesOf_span (futures : List (String × Int)) (invalids : List String)
    (lo hi : String) (sp : Int) (h : sp > 365) :
    (⟨"large_time_span", none, some sp,
      "时间跨度超过一年，请确认数据范围是否正确"⟩ : Anomaly) ∈
      anomaliesOf futures invalids (some (lo, hi, sp)) := by
  unfold anomaliesOf
  simp [h]

/-- Claim C10: `validate_log_timestamps` reports as `total_timestamps` the
number of comma-separated entries of the input, and classifies every entry
into exactly one of the three result lists, so the total equals the sum of
the three list lengths. -/
theorem c10_total_partition (now : DT) (input : String) :
    (validateLogTimestamps now input).totalTimestamps = (splitCh ',' input.data).length ∧
    (validateLogTimestamps now input).totalTimestamps =
      (validateLogTimestamps now input).futureTimestamps.length +
        (validateLogTimestamps now input).pastTimestamps.length +
        (validateLogTimestamps now input).invalidTimestamps.length := by
  constructor
  · show ((splitCh ',' input.data).map pyStripL).length = (splitCh ',' input.data).length
    exact List.length_map _ _
  · show ((splitCh ',' input.data).map pyStripL).length = _
    exact lenPartition (toSecs now) ((splitCh ',' input.data).map pyStripL)

/-- Claim C8: every entry that parses and is strictly later than the current
time is flagged as a future timestamp together with its day count, every
unparsable entry is flagged invalid, a span of the valid entries exceeding
365 days is flagged as an anomaly, and on the input
`"2099-01-01 00:00:00,not-a-date"` (for any current time through 2098-12-31)
the result has exactly one future timestamp with a positive day count, one
invalid entry, and anomalies of both kinds. -/
theorem c8_validate_timestamps (now : DT) (input : String) :
    (∀ e ∈ (splitCh ',' input.data).map pyStripL, ∀ dt, parseTS e = some dt →
      toSecs dt > toSecs now →
      (String.mk e, Int.fdiv (toSecs dt - toSecs now) 86400) ∈
        (validateLogTimestamps now input).futureTimestamps) ∧
    (∀ e ∈ (splitCh ',' input.data).map pyStripL, parseTS e = none →
      String.mk e ∈ (validateLogTimestamps now input).invalidTimestamps) ∧
    (∀ lo hi sp, (validateLogTimestamps now input).timeRange = some (lo, hi, sp) →
      sp > 365 → ∃ a ∈ (validateLogTimestamps now input).anomalies,
        a.atype = "large_time_span") ∧
    (toSecs now ≤ toSecs ⟨2098, 12, 31, 0, 0, 0⟩ →
      (validateLogTimestamps now "2099-01-01 00:00:00,not-a-date").futureTimestamps =
        [("2099-01-01 00:00:00",
          Int.fdiv (toSecs ⟨2099, 1, 1, 0, 0, 0⟩ - toSecs now) 86400)] ∧
      0 < Int.fdiv (toSecs ⟨2099, 1, 1, 0, 0, 0⟩ - toSecs now) 86400 ∧
      (validateLogTimestamps now "2099-01-01 00:00:00,not-a-date").invalidTimestamps =
        ["not-a-date"] ∧
      (∃ a ∈ (validateLogTimestamps now "2099-01-01 00:00:00,not-a-date").anomalies,
        a.atype = "future_timestamps") ∧
      (∃ a ∈ (validateLogTimestamps now "2099-01-01 00:00:00,not-a-date").anomalies,
        a.atype = "invalid_format")) := by
  refine ⟨?_, ?_, ?_, ?_⟩
  · intro e he dt hp hgt
    show _ ∈ ((splitCh ',' input.data).map pyStripL).filterMap (futureFn (toSecs now))
    exact List.mem_filterMap.2 ⟨e, he, by simp [futureFn, hp, hgt]⟩
  · intro e he hp
    show _ ∈ ((splitCh ',' input.data).map pyStripL).filterMap invalidFn
    exact List.mem_filterMap.2 ⟨e, he, by simp [invalidFn, hp]⟩
  · intro lo hi sp htr hsp
    have hanom : (validateLogTimestamps now input).anomalies =
        anomaliesOf (validateLogTimestamps now input).futureTimestamps
          (validateLogTimestamps now input).invalidTimestamps
          (validateLogTimestamps now input).timeRange := rfl
    rw [hanom, htr]
    exact ⟨⟨"large_time_span", none, some sp,
      "时间跨度超过一年，请确认数据范围是否正确"⟩,
      mem_anomaliesOf_span _ _ lo hi sp hsp, rfl⟩
  · intro hnow
    have hdelta : toSecs (⟨2099, 1, 1, 0, 0, 0⟩ : DT) -
        toSecs (⟨2098, 12, 31, 0, 0, 0⟩ : DT) = 86400 := by decide
    have hgt : toSecs (⟨2099, 1, 1, 0, 0, 0⟩ : DT) > toSecs now := by omega
    have hge : 86400 ≤ toSecs (⟨2099, 1, 1, 0, 0, 0⟩ : DT) - toSecs now := by omega
    have hpos : 0 < Int.fdiv (toSecs (⟨2099, 1, 1, 0, 0, 0⟩ : DT) - toSecs now) 86400 := by
      have h1 : (1 : Int) ≤
          Int.fdiv (toSecs (⟨2099, 1, 1, 0, 0, 0⟩ : DT) - toSecs now) 86400 := by
        rw [Int.fdiv_eq_ediv _ (by norm_num : (0 : Int) ≤ 86400)]
        rw [Int.le_ediv_iff_mul_le (by norm_num : (0 : Int) < 86400)]
        omega
      omega
    have hfut : (validateLogTimestamps now "2099-01-01 00:00:00,not-a-date").futureTimestamps =
        [("2099-01-01 00:00:00",
          Int.fdiv (toSecs ⟨2099, 1, 1, 0, 0, 0⟩ - toSecs now) 86400)] := by
      show (["2099-01-01 00:00:00".data, "not-a-date".data].filterMap
        (futureFn (toSecs now))) = _
      simp only [List.filterMap_cons, List.filterMap_nil, futureFn]
      rw [show parseTS "2099-01-01 00:00:00".data = some ⟨2099, 1, 1, 0, 0, 0⟩ from rfl]
      rw [show parseTS "not-a-date".data = (none : Option DT) from rfl]
      simp [hgt]
    have hinv : (validateLogTimestamps now "2099-01-01 00:00:00,not-a-date").invalidTimestamps =
        ["not-a-date"] := by
      show (["2099-01-01 00:00:00".data, "not-a-date".data].filterMap invalidFn) = _
      simp only [List.filterMap_cons, List.filterMap_nil, invalidFn]
      rw [show parseTS "2099-01-01 00:00:00".data = some ⟨2099, 1, 1, 0, 0, 0⟩ from rfl]
      rw [show parseTS "not-a-date".data = (none : Option DT) from rfl]
    have hanom : (validateLogTimestamps now "2099-01-01 00:00:00,not-a-date").anomalies =
        anomaliesOf
          (validateLogTimestamps now "2099-01-01 00:00:00,not-a-date").futureTimestamps
          (validateLogTimestamps now "2099-01-01 00:00:00,not-a-date").invalidTimestamps
          (validateLogTimestamps now "2099-01-01 00:00:00,not-a-date").timeRange := rfl
    refine ⟨hfut, hpos, hinv, ?_, ?_⟩
    · refine ⟨⟨"future_timestamps",
        some (validateLogTimestamps now
          "2099-01-01 00:00:00,not-a-date").futureTimestamps.length, none,
        "发现未来时间戳，可能是系统时间配置错误或测试数据"⟩, ?_, rfl⟩
      rw [hanom]
      exact mem_anomaliesOf_future _ _ _ (by rw [hfut]; simp)
    · refine ⟨⟨"invalid_format",
        some (validateLogTimestamps now
          "2099-01-01 00:00:00,not-a-date").invalidTimestamps.length, none,
        "时间戳格式无效，无法解析"⟩, ?_, rfl⟩
      rw [hanom]
      exact mem_anomaliesOf_invalid _ _ _ (by rw [hinv]; simp)

/-- Witness for C8: at the concrete current time 2026-10-12 00:00:00 UTC the
example input yields the expected classification. -/
theorem c8_validate_timestamps_witness :
    (validateLogTimestamps ⟨2026, 10, 12, 0, 0, 0⟩
      "2099-01-01 00:00:00,not-a-date").futureTimestamps =
      [("2099-01-01 00:00:00",
        Int.fdiv (toSecs ⟨2099, 1, 1, 0, 0, 0⟩ - toSecs ⟨2026, 10, 12, 0, 0, 0⟩) 86400)] ∧
    0 < Int.fdiv (toSecs (⟨2099, 1, 1, 0, 0, 0⟩ : DT) -
      toSecs (⟨2026, 10, 12, 0, 0, 0⟩ : DT)) 86400 ∧
    (validateLogTimestamps ⟨2026, 10, 12, 0, 0, 0⟩
      "2099-01-01 00:00:00,not-a-date").invalidTimestamps = ["not-a-date"] ∧
    (∃ a ∈ (validateLogTimestamps ⟨2026, 10, 12, 0, 0, 0⟩
      "2099-01-01 00:00:00,not-a-date").anomalies, a.atype = "future_timestamps") ∧
    (∃ a ∈ (validateLogTimestamps ⟨2026, 10, 12, 0, 0, 0⟩
      "2099-01-01 00:00:00,not-a-date").anomalies, a.atype = "invalid_format") :=
  (c8_validate_timestamps ⟨2026, 10, 12, 0, 0, 0⟩
    "2099-01-01 00:00:00,not-a-date").2.2.2 (by decide)

theorem noTripleAux_cons_nl (k : Nat) (rest : List Char) :
    noTripleAux k ('\n' :: rest) = (decide (k + 1 < 3) && noTripleAux (k + 1) rest) := by
  simp [noTripleAux]

theorem noTripleAux_cons_other {c : Char} (hc : c ≠ '\n') (k : Nat) (rest : List Char) :
    noTripleAux k (c :: rest) = noTripleAux 0 rest := by
  simp [noTripleAux, hc]

theorem noTripleAux_mono :
    ∀ (l : List Char) (k k' : Nat), k' ≤ k → noTripleAux k l = true →
      noTripleAux k' l = true := by
  intro l
  induction l with
  | nil => intro k k' _ _; rfl
  | cons c rest ih =>
    intro k k' hle h
    by_cases hc : c = '\n'
    · subst hc
      rw [noTripleAux_cons_nl] at h ⊢
      rw [Bool.and_eq_true] at h ⊢
      refine ⟨by simp_all; omega, ih (k + 1) (k' + 1) (by omega) h.2⟩
    · rw [noTripleAux_cons_other hc] at h ⊢
      exact h

theorem noTripleAux_two_nl {k : Nat} {t : List Char}
    (h : noTripleAux k ('\n' :: '\n' :: t) = true) : k = 0 := by
  rw [noTripleAux_cons_nl, Bool.and_eq_true, noTripleAux_cons_nl, Bool.and_eq_true] at h
  have h1 := h.1
  have h2 := h.2.1
  simp only [decide_eq_true_eq] at h1 h2
  omega

theorem noTripleAux_not_contains :
    ∀ (l : List Char) (k : Nat), noTripleAux k l = true →
      containsSub tripleNL l = false := by
  intro l
  induction l with
  | nil => intro k _; rfl
  | cons c rest ih =>
    intro k h
    have hrest : containsSub tripleNL rest = false := by
      by_cases hc : c = '\n'
      · subst hc
        rw [noTripleAux_cons_nl, Bool.and_eq_true] at h
        exact ih (k + 1) h.2
      · rw [noTripleAux_cons_other hc] at h
        exact ih 0 h
    have hpre : tripleNL.isPrefixOf (c :: rest) = false := by
      by_cases hc : c = '\n'
      · subst hc
        cases rest with
        | nil => rfl
        | cons c2 t =>
          by_cases h2 : c2 = '\n'
          · subst h2
            cases t with
            | nil => rfl
            | cons c3 t2 =>
              by_cases h3 : c3 = '\n'
              · subst h3
                exfalso
                rw [noTripleAux_cons_nl, Bool.and_eq_true] at h
                have := noTripleAux_two_nl h.2
                omega
              · have h3' : ¬ ('\n' = c3) := fun hh => h3 hh.symm
                simp [tripleNL, List.isPrefixOf, h3']
          · have h2' : ¬ ('\n' = c2) := fun hh => h2 hh.symm
            simp [tripleNL, List.isPrefixOf, h2']
      · have hc' : ¬ ('\n' = c) := fun hh => hc hh.symm
        simp [tripleNL, List.isPrefixOf, hc']
    show (tripleNL.isPrefixOf (c :: rest) || containsSub tripleNL rest) = false
    rw [hpre, hrest]
    rfl

theorem noTripleAux_of_not_contains :
    ∀ l : List Char, containsSub tripleNL l = false →
      noTripleAux 0 l = true ∧
      (l.head? ≠ some '\n' → noTripleAux 2 l = true) ∧
      (¬ (l.head? = some '\n' ∧ l.tail.head? = some '\n') → noTripleAux 1 l = true) := by
  intro l
  induction l with
  | nil =>
    intro _
    exact ⟨rfl, fun _ => rfl, fun _ => rfl⟩
  | cons c rest ih =>
    intro h
    have hsplit : (tripleNL.isPrefixOf (c :: rest) || containsSub tripleNL rest) = false := h
    rw [Bool.or_eq_false_iff] at hsplit
    obtain ⟨hpre, hrest⟩ := hsplit
    have ihr := ih hrest
    by_cases hc : c = '\n'
    · subst hc
      have hnot2 : ¬ (rest.head? = some '\n' ∧ rest.tail.head? = some '\n') := by
        intro hcon
        obtain ⟨h1, h2⟩ := hcon
        cases rest with
        | nil => simp at h1
        | cons r1 rest2 =>
          simp only [List.head?_cons, Option.some.injEq] at h1
          subst h1
          simp only [List.tail_cons] at h2
          cases rest2 with
          | nil => simp at h2
          | cons r2 rest3 =>
            simp only [List.head?_cons, Option.some.injEq] at h2
            subst h2
            simp [tripleNL, List.isPrefixOf] at hpre
      have hone : noTripleAux 1 rest = true := ihr.2.2 hnot2
      refine ⟨?_, ?_, ?_⟩
      · rw [noTripleAux_cons_nl, Bool.and_eq_true]
        exact ⟨by simp, hone⟩
      · intro hh; simp at hh
      · intro hh
        simp only [List.head?_cons, List.tail_cons] at hh
        have hr : rest.head? ≠ some '\n' := by
          intro hcon
          exact hh (by simp [hcon])
        rw [noTripleAux_cons_nl, Bool.and_eq_true]
        exact ⟨by simp, ihr.2.1 hr⟩
    · refine ⟨?_, fun _ => ?_, fun _ => ?_⟩ <;>
        · rw [noTripleAux_cons_other hc]
          exact ihr.1

theorem noTripleAux_append_reset :
    ∀ (xs : List Char) (k : Nat) (c : Char) (ys : List Char), c ≠ '\n' →
      noTripleAux k (xs ++ c :: ys) = true → noTripleAux 0 ys = true := by
  intro xs
  induction xs with
  | nil =>
    intro k c ys hc h
    rw [List.nil_append, noTripleAux_cons_other hc] at h
    exact h
  | cons x xs ih =>
    intro k c ys hc h
    rw [List.cons_append] at h
    by_cases hx : x = '\n'
    · subst hx
      rw [noTripleAux_cons_nl, Bool.and_eq_true] at h
      exact ih (k + 1) c ys hc h.2
    · rw [noTripleAux_cons_other hx] at h
      exact ih 0 c ys hc h

theorem noTripleAux_build :
    ∀ chunk : List Char, chunk ≠ [] → (∀ c ∈ chunk, c ≠ '\n') →
      ∀ (ys : List Char) (k : Nat), noTripleAux 0 ys = true →
        noTripleAux k (chunk ++ ys) = true := by
  intro chunk
  induction chunk with
  | nil => intro h; exact absurd rfl h
  | cons c cs ih =>
    intro _ hnl ys k hys
    have hc : c ≠ '\n' := hnl c (by simp)
    cases cs with
    | nil =>
      rw [List.cons_append, List.nil_append, noTripleAux_cons_other hc]
      exact hys
    | cons d ds =>
      rw [List.cons_append, noTripleAux_cons_other hc]
      exact ih (by simp) (fun x hx => hnl x (by simp [hx])) ys 0 hys

theorem noTripleAux_nlFree :
    ∀ l : List Char, (∀ c ∈ l, c ≠ '\n') → ∀ k, noTripleAux k l = true := by
  intro l
  induction l with
  | nil => intro _ k; rfl
  | cons c rest ih =>
    intro h k
    have hc : c ≠ '\n' := h c (by simp)
    rw [noTripleAux_cons_other hc]
    exact ih (fun x hx => h x (by simp [hx])) 0

/-- Step compatibility: prepending the same character preserves the
automaton-preservation property. -/
theorem noTripleAux_cons_step {rest out : List Char}
    (h : ∀ k, noTripleAux k rest = true → noTripleAux k out = true) :
    ∀ (k : Nat) (c : Char), noTripleAux k (c :: rest) = true →
      noTripleAux k (c :: out) = true := by
  intro k c hk
  by_cases hc : c = '\n'
  · subst hc
    rw [noTripleAux_cons_nl, Bool.and_eq_true] at hk ⊢
    exact ⟨hk.1, h (k + 1) hk.2⟩
  · rw [noTripleAux_cons_other hc] at hk ⊢
    exact h 0 hk

theorem noTripleAux_prefix :
    ∀ (l t : List Char) (k : Nat), t <+: l → noTripleAux k l = true →
      noTripleAux k t = true := by
  intro l
  induction l with
  | nil =>
    intro t k ht _
    rw [List.prefix_nil.1 ht]
    rfl
  | cons c rest ih =>
    intro t k ht h
    cases t with
    | nil => rfl
    | cons x t' =>
      obtain ⟨r, hr⟩ := ht
      simp only [List.cons_append, List.cons.injEq] at hr
      obtain ⟨rfl, hr2⟩ := hr
      have ht' : t' <+: rest := ⟨r, hr2⟩
      by_cases hc : x = '\n'
      · subst hc
        rw [noTripleAux_cons_nl, Bool.and_eq_true] at h ⊢
        exact ⟨h.1, ih t' (k + 1) ht' h.2⟩
      · rw [noTripleAux_cons_other hc] at h ⊢
        exact ih t' 0 ht' h

theorem noTripleAux_suffix0 :
    ∀ (l t : List Char), t <:+ l → noTripleAux 0 l = true → noTripleAux 0 t = true := by
  intro l
  induction l with
  | nil =>
    intro t ht _
    rw [List.suffix_nil.1 ht]
    rfl
  | cons c rest ih =>
    intro t ht h
    rcases List.suffix_cons_iff.1 ht with h1 | h1
    · exact h1 ▸ h
    · refine ih t h1 ?_
      by_cases hc : c = '\n'
      · subst hc
        rw [noTripleAux_cons_nl, Bool.and_eq_true] at h
        exact noTripleAux_mono rest 1 0 (by omega) h.2
      · rw [noTripleAux_cons_other hc] at h
        exact h

/-! ### Proof machinery: the collapse loop and `strip` -/

theorem tripleNL_isPre_shape {c : Char} {rest : List Char}
    (h : tripleNL.isPrefixOf (c :: rest) = true) :
    ∃ t, c = '\n' ∧ rest = '\n' :: '\n' :: t := by
  cases rest with
  | nil => simp [tripleNL, List.isPrefixOf] at h
  | cons c2 t =>
    cases t with
    | nil => simp [tripleNL, List.isPrefixOf] at h
    | cons c3 t2 =>
      simp only [tripleNL, List.isPrefixOf, Bool.and_eq_true, beq_iff_eq] at h
      exact ⟨t2, h.1.symm, by rw [← h.2.1, ← h.2.2.1]⟩

theorem replTripleGo_length_le :
    ∀ (fuel : Nat) (l : List Char), (replTripleGo fuel l).length ≤ l.length := by
  intro fuel
  induction fuel with
  | zero => intro l; exact le_refl _
  | succ f ih =>
    intro l
    cases l with
    | nil => simp [replTripleGo]
    | cons c rest =>
      rw [replTripleGo]
      by_cases hp : tripleNL.isPrefixOf (c :: rest) = true
      · rw [if_pos hp]
        obtain ⟨t, rfl, rfl⟩ := tripleNL_isPre_shape hp
        have h1 := ih (('\n' :: '\n' :: t).drop 2)
        simp only [List.drop_succ_cons, List.drop_zero] at h1 ⊢
        simp only [List.length_cons]
        omega
      · rw [if_neg hp]
        have h1 := ih rest
        simp only [List.length_cons]
        omega

theorem replTripleGo_length_lt :
    ∀ (fuel : Nat) (l : List Char), containsTriple l = true →
      (replTripleGo fuel l).length < l.length ∨ fuel < l.length := by
  intro fuel
  induction fuel with
  | zero =>
    intro l h
    cases l with
    | nil => exact absurd h (by simp [containsTriple, containsSub, tripleNL])
    | cons c rest => right; simp
  | succ f ih =>
    intro l h
    cases l with
    | nil => exact absurd h (by simp [containsTriple, containsSub, tripleNL])
    | cons c rest =>
      rw [replTripleGo]
      by_cases hp : tripleNL.isPrefixOf (c :: rest) = true
      · rw [if_pos hp]
        obtain ⟨t, rfl, rfl⟩ := tripleNL_isPre_shape hp
        left
        have h1 := replTripleGo_length_le f (('\n' :: '\n' :: t).drop 2)
        simp only [List.drop_succ_cons, List.drop_zero] at h1 ⊢
        simp only [List.length_cons]
        omega
      · rw [if_neg hp]
        have hrest : containsTriple rest = true := by
          have hsplit : (tripleNL.isPrefixOf (c :: rest) || containsSub tripleNL rest) = true := h
          rw [Bool.or_eq_true] at hsplit
          rcases hsplit with hpre | hr
          · exact absurd hpre hp
          · exact hr
        rcases ih rest hrest with h1 | h1
        · left; simp only [List.length_cons]; omega
        · right; simp only [List.length_cons]; omega

theorem replaceTriple_length_lt (l : List Char) (h : containsTriple l = true) :
    (replaceTriple l).length < l.length := by
  unfold replaceTriple
  rcases replTripleGo_length_lt l.length l h with h1 | h1
  · exact h1
  · omega

theorem collapseGo_not_contains :
    ∀ (fuel : Nat) (l : List Char), l.length ≤ fuel →
      containsTriple (collapseGo fuel l) = false := by
  intro fuel
  induction fuel with
  | zero =>
    intro l hl
    have : l = [] := List.length_eq_zero.1 (by omega)
    subst this
    rfl
  | succ f ih =>
    intro l hl
    rw [collapseGo]
    by_cases h : containsTriple l = true
    · rw [if_pos h]
      refine ih (replaceTriple l) ?_
      have := replaceTriple_length_lt l h
      omega
    · rw [if_neg h]
      simpa using h

theorem collapseNewlines_noTriple (l : List Char) :
    noTripleAux 0 (collapseNewlines l) = true :=
  (noTripleAux_of_not_contains _
    (collapseGo_not_contains l.length l (le_refl _))).1

theorem head?_dropWhile_not (p : Char → Bool) :
    ∀ (l : List Char) (c : Char), (l.dropWhile p).head? = some c → p c = false := by
  intro l
  induction l with
  | nil => intro c h; simp [List.dropWhile] at h
  | cons x rest ih =>
    intro c h
    rw [List.dropWhile] at h
    by_cases hx : p x
    · rw [hx] at h; exact ih c (by simpa using h)
    · simp only [Bool.not_eq_true] at hx
      rw [hx] at h
      simp only [List.head?_cons, Option.some.injEq] at h
      rw [← h]
      exact hx

theorem dropWhile_suffix' (p : Char → Bool) :
    ∀ l : List Char, l.dropWhile p <:+ l := by
  intro l
  induction l with
  | nil => exact ⟨[], rfl⟩
  | cons x rest ih =>
    rw [List.dropWhile]
    by_cases hx : p x
    · rw [hx]
      simpa using ih.trans (List.suffix_cons x rest)
    · simp only [Bool.not_eq_true] at hx
      rw [hx]

theorem pyStripL_prefix_core (l : List Char) :
    pyStripL l <+: l.dropWhile pyWs := by
  unfold pyStripL
  obtain ⟨u, hu⟩ := dropWhile_suffix' pyWs (l.dropWhile pyWs).reverse
  refine ⟨u.reverse, ?_⟩
  rw [← List.reverse_append, hu, List.reverse_reverse]

theorem pyStripL_noTriple (l : List Char) (h : noTripleAux 0 l = true) :
    noTripleAux 0 (pyStripL l) = true := by
  have h1 : noTripleAux 0 (l.dropWhile pyWs) = true :=
    noTripleAux_suffix0 l _ (dropWhile_suffix' pyWs l) h
  exact noTripleAux_prefix _ _ 0 (pyStripL_prefix_core l) h1

theorem pyStripL_head (l : List Char) :
    ∀ c, (pyStripL l).head? = some c → pyWs c = false := by
  intro c hc
  have hne : pyStripL l ≠ [] := by
    intro he; rw [he] at hc; simp at hc
  obtain ⟨u, hu⟩ := pyStripL_prefix_core l
  have : (l.dropWhile pyWs).head? = some c := by
    rw [← hu]
    cases hs : pyStripL l with
    | nil => exact absurd hs hne
    | cons a t =>
      rw [hs] at hc
      simp only [List.head?_cons, Option.some.injEq] at hc
      simp [hc]
  exact head?_dropWhile_not pyWs _ c this

theorem pyStripL_getLast (l : List Char) :
    ∀ c, (pyStripL l).getLast? = some c → pyWs c = false := by
  intro c hc
  unfold pyStripL at hc
  rw [List.getLast?_reverse] at hc
  exact head?_dropWhile_not pyWs _ c hc

/-! ### Proof machinery: split/join and the spacing pass -/

theorem splitCh_ne_nil (sep : Char) : ∀ l : List Char, splitCh sep l ≠ [] := by
  intro l
  cases l with
  | nil => simp [splitCh]
  | cons c rest =>
    rw [splitCh]
    by_cases hc : c = sep
    · simp [hc]
    · rw [if_neg hc]
      cases h : splitCh sep rest with
      | nil => simp
      | cons p ps => simp

theorem splitCh_sepFree (sep : Char) :
    ∀ l : List Char, ∀ p ∈ splitCh sep l, ∀ c ∈ p, c ≠ sep := by
  intro l
  induction l with
  | nil =>
    intro p hp c hc
    simp [splitCh] at hp
    subst hp
    simp at hc
  | cons x rest ih =>
    intro p hp c hc
    rw [splitCh] at hp
    by_cases hx : x = sep
    · rw [if_pos hx] at hp
      rcases List.mem_cons.1 hp with h | h
      · subst h; simp at hc
      · exact ih p h c hc
    · rw [if_neg hx] at hp
      cases hs : splitCh sep rest with
      | nil => exact absurd hs (splitCh_ne_nil sep rest)
      | cons q qs =>
        rw [hs] at hp
        rcases List.mem_cons.1 hp with h | h
        · subst h
          rcases List.mem_cons.1 hc with h2 | h2
          · exact h2 ▸ hx
          · exact ih q (hs ▸ List.mem_cons_self q qs) c h2
        · exact ih p (hs ▸ List.mem_cons.2 (.inr h)) c hc

theorem noTripleAux_eq_okP_splitCh :
    ∀ (l : List Char) (k : Nat), noTripleAux k l = okP k (splitCh '\n' l) := by
  intro l
  induction l with
  | nil => intro k; rfl
  | cons c rest ih =>
    intro k
    by_cases hc : c = '\n'
    · subst hc
      rw [noTripleAux_cons_nl]
      show _ = okP k ([] :: splitCh '\n' rest)
      cases hs : splitCh '\n' rest with
      | nil => exact absurd hs (splitCh_ne_nil '\n' rest)
      | cons p ps =>
        show (decide (k + 1 < 3) && noTripleAux (k + 1) rest) =
          (decide ((if ([] : List Char).isEmpty then k else 0) + 1 < 3) &&
            okP ((if ([] : List Char).isEmpty then k else 0) + 1) (p :: ps))
        simp only [List.isEmpty_nil, if_pos rfl, if_true]
        rw [ih (k + 1), hs]
    · rw [noTripleAux_cons_other hc]
      show _ = okP k (splitCh '\n' (c :: rest))
      rw [splitCh, if_neg hc]
      cases hs : splitCh '\n' rest with
      | nil => exact absurd hs (splitCh_ne_nil '\n' rest)
      | cons p ps =>
        cases ps with
        | nil =>
          show noTripleAux 0 rest = true
          rw [ih 0, hs]
          rfl
        | cons q ps' =>
          show noTripleAux 0 rest =
            (decide ((if (c :: p).isEmpty then k else 0) + 1 < 3) &&
              okP ((if (c :: p).isEmpty then k else 0) + 1) (q :: ps'))
          rw [ih 0, hs]
          show (decide ((if p.isEmpty then 0 else 0) + 1 < 3) &&
              okP ((if p.isEmpty then 0 else 0) + 1) (q :: ps')) = _
          simp

theorem nlFree_scan (p : List Char) (hne : p ≠ []) (hnl : ∀ c ∈ p, c ≠ '\n') :
    ∀ (ys : List Char) (k : Nat), noTripleAux k (p ++ ys) = noTripleAux 0 ys := by
  induction p with
  | nil => exact absurd rfl hne
  | cons c cs ih =>
    intro ys k
    have hc : c ≠ '\n' := hnl c (by simp)
    rw [List.cons_append, noTripleAux_cons_other hc]
    cases cs with
    | nil => rw [List.nil_append]
    | cons d ds => exact ih (by simp) (fun x hx => hnl x (by simp [hx])) ys 0

theorem noTripleAux_joinNL_eq_okP :
    ∀ (ps : List (List Char)) (k : Nat), (∀ p ∈ ps, ∀ c ∈ p, c ≠ '\n') →
      noTripleAux k (joinNL ps) = okP k ps := by
  intro ps
  induction ps with
  | nil => intro k _; rfl
  | cons p ps ih =>
    intro k hnl
    cases ps with
    | nil =>
      show noTripleAux k p = true
      exact noTripleAux_nlFree p (hnl p (by simp)) k
    | cons q ps' =>
      show noTripleAux k (p ++ '\n' :: joinNL (q :: ps')) = _
      have hrec : ∀ j, noTripleAux j (joinNL (q :: ps')) = okP j (q :: ps') :=
        fun j => ih j (fun x hx c hc => hnl x (by simp [List.mem_cons.1 hx]) c hc)
      by_cases hp : p = []
      · subst hp
        rw [List.nil_append, noTripleAux_cons_nl, hrec (k + 1)]
        show _ = (decide ((if ([] : List Char).isEmpty then k else 0) + 1 < 3) &&
          okP ((if ([] : List Char).isEmpty then k else 0) + 1) (q :: ps'))
        simp only [List.isEmpty_nil, if_true]
      · rw [nlFree_scan p hp (hnl p (by simp)), noTripleAux_cons_nl, hrec 1]
        show _ = (decide ((if p.isEmpty then k else 0) + 1 < 3) &&
          okP ((if p.isEmpty then k else 0) + 1) (q :: ps'))
        rw [if_neg (by simpa using hp)]

theorem okP_head_ne_indep (j j' : Nat) :
    ∀ (y : List Char) (ps : List (List Char)), y ≠ [] →
      okP j (y :: ps) = okP j' (y :: ps) := by
  intro y ps hy
  cases ps with
  | nil => rfl
  | cons q ps' =>
    show (decide ((if y.isEmpty then j else 0) + 1 < 3) && _) =
      (decide ((if y.isEmpty then j' else 0) + 1 < 3) && _)
    rw [if_neg (by simpa using hy), if_neg (by simpa using hy)]

theorem espGo_head : ∀ (a : List Char) (l : List (List Char)),
    ∃ t, espGo (a :: l) = a :: t := by
  intro a l
  cases l with
  | nil => exact ⟨[], rfl⟩
  | cons b t =>
    rw [espGo]
    by_cases h : espCond a b
    · rw [if_pos h]; exact ⟨_, rfl⟩
    · rw [if_neg h]; exact ⟨_, rfl⟩

theorem espCond_ne {x y : List Char} (h : espCond x y = true) : x ≠ [] ∧ y ≠ [] := by
  unfold espCond at h
  simp only [Bool.and_eq_true, Bool.not_eq_true'] at h
  exact ⟨by simpa using h.1.1.1.1, by simpa using h.1.1.1.2⟩

theorem espGo_okP :
    ∀ ps : List (List Char), ∀ k, okP k ps = true → okP k (espGo ps) = true := by
  intro ps
  induction ps using espGo.induct with
  | case1 x y rest hcond ih =>
    intro k h
    obtain ⟨hx, hy⟩ := espCond_ne hcond
    obtain ⟨t, ht⟩ := espGo_head y rest
    rw [espGo, if_pos hcond, ht]
    have hstep : okP k (x :: y :: rest) =
        (decide (1 < 3) && okP 1 (y :: rest)) := by
      show (decide ((if x.isEmpty then k else 0) + 1 < 3) && _) = _
      rw [if_neg (by simpa using hx)]
    rw [hstep] at h
    rw [Bool.and_eq_true] at h
    have hrec : okP 1 (espGo (y :: rest)) = true := ih 1 h.2
    rw [ht] at hrec
    show (decide ((if x.isEmpty then k else 0) + 1 < 3) &&
      okP ((if x.isEmpty then k else 0) + 1) ([] :: y :: t)) = true
    rw [if_neg (by simpa using hx)]
    show (decide (1 < 3) && okP 1 ([] :: y :: t)) = true
    rw [Bool.and_eq_true]
    refine ⟨by simp, ?_⟩
    show (decide ((if ([] : List Char).isEmpty then 1 else 0) + 1 < 3) &&
      okP ((if ([] : List Char).isEmpty then 1 else 0) + 1) (y :: t)) = true
    simp only [List.isEmpty_nil, if_true]
    rw [Bool.and_eq_true]
    exact ⟨by simp, (okP_head_ne_indep 2 1 y t hy).trans hrec⟩
  | case2 x y rest hcond ih =>
    intro k h
    rw [espGo, if_neg hcond]
    obtain ⟨t, ht⟩ := espGo_head y rest
    rw [ht]
    cases hxe : x.isEmpty with
    | true =>
      have hstep : okP k (x :: y :: rest) = (decide (k + 1 < 3) && okP (k + 1) (y :: rest)) := by
        show (decide ((if x.isEmpty then k else 0) + 1 < 3) && _) = _
        rw [hxe, if_pos rfl]
      rw [hstep, Bool.and_eq_true] at h
      have hrec := ih (k + 1) h.2
      rw [ht] at hrec
      show (decide ((if x.isEmpty then k else 0) + 1 < 3) &&
        okP ((if x.isEmpty then k else 0) + 1) (y :: t)) = true
      rw [hxe, if_pos rfl, Bool.and_eq_true]
      exact ⟨by simpa using h.1, hrec⟩
    | false =>
      have hstep : okP k (x :: y :: rest) = (decide (1 < 3) && okP 1 (y :: rest)) := by
        show (decide ((if x.isEmpty then k else 0) + 1 < 3) && _) = _
        rw [hxe, if_neg (by simp)]
      rw [hstep, Bool.and_eq_true] at h
      have hrec := ih 1 h.2
      rw [ht] at hrec
      show (decide ((if x.isEmpty then k else 0) + 1 < 3) &&
        okP ((if x.isEmpty then k else 0) + 1) (y :: t)) = true
      rw [hxe, if_neg (by simp), Bool.and_eq_true]
      exact ⟨by simp, hrec⟩
  | case3 l hlen =>
    intro k h
    cases l with
    | nil => exact h
    | cons a t =>
      cases t with
      | nil => exact h
      | cons b t2 => exact absurd rfl (hlen a b t2)

/-! ### Proof machinery: edge characters through the spacing pass -/

theorem joinNL_head :
    ∀ (p : List Char) (ps : List (List Char)), p ≠ [] →
      (joinNL (p :: ps)).head? = p.head? := by
  intro p ps hp
  cases ps with
  | nil => rfl
  | cons q ps' =>
    show (p ++ '\n' :: joinNL (q :: ps')).head? = p.head?
    cases p with
    | nil => exact absurd rfl hp
    | cons c t => rfl

theorem joinNL_ne_nil_of_two :
    ∀ (p q : List Char) (ps : List (List Char)), joinNL (p :: q :: ps) ≠ [] := by
  intro p q ps h
  have : (p ++ '\n' :: joinNL (q :: ps)) = [] := h
  simp at this

theorem joinNL_getLast :
    ∀ (ps : List (List Char)) (q : List Char), ps.getLast? = some q → q ≠ [] →
      (joinNL ps).getLast? = q.getLast? := by
  intro ps
  induction ps with
  | nil => intro q h _; simp at h
  | cons p ps' ih =>
    intro q h hq
    cases ps' with
    | nil =>
      simp only [List.getLast?_singleton, Option.some.injEq] at h
      subst h
      rfl
    | cons r ps'' =>
      rw [List.getLast?_cons_cons] at h
      show (p ++ '\n' :: joinNL (r :: ps'')).getLast? = q.getLast?
      rw [List.getLast?_append_cons]
      have hrec := ih q h hq
      cases hj : joinNL (r :: ps'') with
      | nil =>
        exfalso
        cases ps'' with
        | nil =>
          have : r = q := by simpa using h
          subst this
          exact hq (by simpa [joinNL] using hj)
        | cons s ps3 => exact joinNL_ne_nil_of_two r s ps3 hj
      | cons a t =>
        rw [List.getLast?_cons_cons]
        rw [hj] at hrec
        exact hrec

theorem splitCh_cons_ne (sep c : Char) (rest : List Char) (hc : c ≠ sep) :
    ∃ p' ps, splitCh sep (c :: rest) = (c :: p') :: ps ∧ splitCh sep rest = p' :: ps := by
  rw [splitCh, if_neg hc]
  cases hs : splitCh sep rest with
  | nil => exact absurd hs (splitCh_ne_nil sep rest)
  | cons p ps => exact ⟨p, ps, rfl, rfl⟩

theorem splitCh_single_piece (sep : Char) :
    ∀ l p, splitCh sep l = [p] → p = l := by
  intro l
  induction l with
  | nil => intro p h; simp [splitCh] at h; exact h
  | cons c rest ih =>
    intro p h
    rw [splitCh] at h
    by_cases hc : c = sep
    · rw [if_pos hc] at h
      simp only [List.cons.injEq] at h
      exact absurd h.2 (splitCh_ne_nil sep rest)
    · rw [if_neg hc] at h
      cases hs : splitCh sep rest with
      | nil => exact absurd hs (splitCh_ne_nil sep rest)
      | cons q qs =>
        rw [hs] at h
        simp only [List.cons.injEq] at h
        obtain ⟨h1, h2⟩ := h
        have : q = rest := ih q (by rw [hs, h2])
        rw [← h1, this]

theorem getLast?_cons_ne_nil {α : Type} (a : α) {l : List α} (h : l ≠ []) :
    (a :: l).getLast? = l.getLast? := by
  cases l with
  | nil => exact absurd rfl h
  | cons b t => exact List.getLast?_cons_cons

theorem splitCh_getLast (sep : Char) :
    ∀ (l : List Char) (c : Char), c ≠ sep → l.getLast? = some c →
      ∀ q, (splitCh sep l).getLast? = some q → q.getLast? = some c := by
  intro l
  induction l with
  | nil => intro c _ h; simp at h
  | cons x rest ih =>
    intro c hc hlast q hq
    by_cases hrestnil : rest = []
    · subst hrestnil
      have hx : x = c := by simpa using hlast
      subst hx
      obtain ⟨p', ps, heq, hs⟩ := splitCh_cons_ne sep x [] hc
      have hs' : ([[]] : List (List Char)) = p' :: ps := hs
      have hps : p' = [] ∧ ps = [] := by
        simpa using hs'.symm
      rw [heq, hps.1, hps.2] at hq
      have hqx : q = [x] := by simpa using hq.symm
      rw [hqx]
      rfl
    · have hlast' : rest.getLast? = some c := by
        rw [getLast?_cons_ne_nil x hrestnil] at hlast
        exact hlast
      by_cases hx : x = sep
      · rw [splitCh, if_pos hx] at hq
        cases hs : splitCh sep rest with
        | nil => exact absurd hs (splitCh_ne_nil sep rest)
        | cons p ps =>
          rw [hs, List.getLast?_cons_cons] at hq
          exact ih c hc hlast' q (by rw [hs]; exact hq)
      · obtain ⟨p', ps, heq, hs⟩ := splitCh_cons_ne sep x rest hx
        rw [heq] at hq
        cases hps : ps with
        | nil =>
          rw [hps] at hq
          have hqeq : q = x :: p' := by simpa using hq.symm
          have hp' : p' = rest := splitCh_single_piece sep rest p' (by rw [hs, hps])
          rw [hqeq, hp']
          rw [getLast?_cons_ne_nil x hrestnil]
          exact hlast'
        | cons p2 ps2 =>
          rw [hps, List.getLast?_cons_cons] at hq
          exact ih c hc hlast' q
            (by rw [hs, hps, List.getLast?_cons_cons]; exact hq)

theorem espGo_getLast :
    ∀ ps : List (List Char), (espGo ps).getLast? = ps.getLast? := by
  intro ps
  induction ps using espGo.induct with
  | case1 x y rest hcond ih =>
    rw [espGo, if_pos hcond]
    obtain ⟨t, ht⟩ := espGo_head y rest
    rw [ht] at ih ⊢
    calc (x :: [] :: y :: t).getLast? = (y :: t).getLast? := by
          rw [List.getLast?_cons_cons, List.getLast?_cons_cons]
      _ = (y :: rest).getLast? := ih
      _ = (x :: y :: rest).getLast? := List.getLast?_cons_cons.symm
  | case2 x y rest hcond ih =>
    rw [espGo, if_neg hcond]
    obtain ⟨t, ht⟩ := espGo_head y rest
    rw [ht] at ih ⊢
    calc (x :: y :: t).getLast? = (y :: t).getLast? := List.getLast?_cons_cons
      _ = (y :: rest).getLast? := ih
      _ = (x :: y :: rest).getLast? := List.getLast?_cons_cons.symm
  | case3 l hlen =>
    cases l with
    | nil => rfl
    | cons a t =>
      cases t with
      | nil => rfl
      | cons b t2 => exact absurd rfl (hlen a b t2)

theorem espGo_sepFree :
    ∀ ps : List (List Char), (∀ p ∈ ps, ∀ c ∈ p, c ≠ '\n') →
      ∀ p ∈ espGo ps, ∀ c ∈ p, c ≠ '\n' := by
  intro ps
  induction ps using espGo.induct with
  | case1 x y rest hcond ih =>
    intro h p hp
    rw [espGo, if_pos hcond] at hp
    rcases List.mem_cons.1 hp with h1 | h1
    · exact h1 ▸ h x (by simp)
    · rcases List.mem_cons.1 h1 with h2 | h2
      · intro c hc; rw [h2] at hc; simp at hc
      · exact ih (fun r hr => h r (by simp [List.mem_cons.1 hr])) p h2
  | case2 x y rest hcond ih =>
    intro h p hp
    rw [espGo, if_neg hcond] at hp
    rcases List.mem_cons.1 hp with h1 | h1
    · exact h1 ▸ h x (by simp)
    · exact ih (fun r hr => h r (by simp [List.mem_cons.1 hr])) p h1
  | case3 l hlen =>
    intro h p hp
    cases l with
    | nil => exact h p hp
    | cons a t =>
      cases t with
      | nil => exact h p hp
      | cons b t2 => exact absurd rfl (hlen a b t2)

theorem getLast?_ne_none {α : Type} : ∀ l : List α, l ≠ [] → l.getLast? ≠ none := by
  intro l
  induction l with
  | nil => intro h; exact absurd rfl h
  | cons a t ih =>
    intro _
    cases t with
    | nil => simp
    | cons b t2 =>
      rw [List.getLast?_cons_cons]
      exact ih (by simp)

theorem ensureParagraphSpacing_noTriple (l : List Char)
    (h : noTripleAux 0 l = true) :
    noTripleAux 0 (ensureParagraphSpacing l) = true := by
  unfold ensureParagraphSpacing
  have h1 : okP 0 (splitCh '\n' l) = true := by
    rw [← noTripleAux_eq_okP_splitCh]
    exact h
  have h2 : okP 0 (espGo (splitCh '\n' l)) = true := espGo_okP _ 0 h1
  rw [noTripleAux_joinNL_eq_okP]
  · exact h2
  · exact espGo_sepFree _ (splitCh_sepFree '\n' l)

theorem ensureParagraphSpacing_head (l : List Char) (c : Char) (hc : c ≠ '\n')
    (h : l.head? = some c) : (ensureParagraphSpacing l).head? = some c := by
  unfold ensureParagraphSpacing
  cases l with
  | nil => simp at h
  | cons x rest =>
    simp only [List.head?_cons, Option.some.injEq] at h
    subst h
    obtain ⟨p', ps, heq, _⟩ := splitCh_cons_ne '\n' x rest hc
    rw [heq]
    obtain ⟨t, ht⟩ := espGo_head (x :: p') ps
    rw [ht]
    rw [joinNL_head (x :: p') t (by simp)]
    rfl

theorem ensureParagraphSpacing_last (l : List Char) (c : Char) (hc : c ≠ '\n')
    (h : l.getLast? = some c) : (ensureParagraphSpacing l).getLast? = some c := by
  unfold ensureParagraphSpacing
  have hne : l ≠ [] := by intro he; rw [he] at h; simp at h
  cases hq : (splitCh '\n' l).getLast? with
  | none => exact absurd hq (getLast?_ne_none _ (splitCh_ne_nil '\n' l))
  | some q =>
    have hqlast : q.getLast? = some c := splitCh_getLast '\n' l c hc h q hq
    have hqne : q ≠ [] := by
      intro he; rw [he] at hqlast; simp at hqlast
    have hesp : (espGo (splitCh '\n' l)).getLast? = some q := by
      rw [espGo_getLast]; exact hq
    rw [joinNL_getLast _ q hesp hqne]
    exact hqlast

/-! ### Proof machinery: the four `_fix_common_issues` substitutions -/

theorem getLast?_eq_none_iff_nil {α : Type} (l : List α) : l.getLast? = none ↔ l = [] := by
  cases l with
  | nil => simp
  | cons a t =>
    constructor
    · intro h; exact absurd h (getLast?_ne_none (a :: t) (by simp))
    · intro h; simp at h

theorem lastCons2 (a : Char) {X Y : List Char} (h : X.getLast? = Y.getLast?) :
    (a :: X).getLast? = (a :: Y).getLast? := by
  cases X with
  | nil =>
    have hy : Y = [] := (getLast?_eq_none_iff_nil Y).1 (by simpa using h.symm)
    subst hy
    rfl
  | cons x xs =>
    cases Y with
    | nil =>
      exfalso
      simp only [List.getLast?_nil] at h
      have := (getLast?_eq_none_iff_nil (x :: xs)).1 h
      simp at this
    | cons y ys =>
      rw [List.getLast?_cons_cons, List.getLast?_cons_cons]
      exact h

theorem colGo_colon_cons (f : Nat) (c2 : Char) (rest2 : List Char) :
    colGo (f + 1) (':' :: c2 :: rest2) =
      if !pyWs c2 then ':' :: ' ' :: c2 :: colGo f rest2
      else ':' :: colGo f (c2 :: rest2) := rfl

theorem colGo_colon_nil (f : Nat) : colGo (f + 1) [':'] = [':'] := rfl

theorem colGo_other (f : Nat) {c : Char} (hc : c ≠ ':') (rest : List Char) :
    colGo (f + 1) (c :: rest) = c :: colGo f rest := by
  show (if c = ':' then _ else c :: colGo f rest) = c :: colGo f rest
  rw [if_neg hc]

theorem colGo_noTriple :
    ∀ (fuel : Nat) (l : List Char) (k : Nat), noTripleAux k l = true →
      noTripleAux k (colGo fuel l) = true := by
  intro fuel
  induction fuel with
  | zero => intro l k h; exact h
  | succ f ih =>
    intro l k h
    cases l with
    | nil => exact h
    | cons c rest =>
      by_cases hc : c = ':'
      · subst hc
        cases rest with
        | nil => rw [colGo_colon_nil]; exact h
        | cons c2 rest2 =>
          rw [colGo_colon_cons]
          by_cases hw : pyWs c2
          · rw [if_neg (by simp [hw])]
            rw [noTripleAux_cons_other (by decide)] at h ⊢
            exact ih (c2 :: rest2) 0 h
          · rw [if_pos (by simp [hw])]
            have hc2 : c2 ≠ '\n' := by
              intro he; rw [he] at hw; exact hw (by decide)
            rw [noTripleAux_cons_other (by decide), noTripleAux_cons_other hc2] at h
            rw [noTripleAux_cons_other (by decide),
              noTripleAux_cons_other (by decide : (' ' : Char) ≠ '\n'),
              noTripleAux_cons_other hc2]
            exact ih rest2 0 h
      · rw [colGo_other f hc]
        exact noTripleAux_cons_step (fun j hj => ih rest j hj) k c h

theorem colGo_head :
    ∀ (fuel : Nat) (l : List Char), (colGo fuel l).head? = l.head? := by
  intro fuel
  induction fuel with
  | zero => intro l; rfl
  | succ f ih =>
    intro l
    cases l with
    | nil => rfl
    | cons c rest =>
      by_cases hc : c = ':'
      · subst hc
        cases rest with
        | nil => rw [colGo_colon_nil]
        | cons c2 rest2 =>
          rw [colGo_colon_cons]
          by_cases hw : pyWs c2
          · rw [if_neg (by simp [hw])]; rfl
          · rw [if_pos (by simp [hw])]; rfl
      · rw [colGo_other f hc]
        rfl

theorem colGo_getLast :
    ∀ (fuel : Nat) (l : List Char), (colGo fuel l).getLast? = l.getLast? := by
  intro fuel
  induction fuel with
  | zero => intro l; rfl
  | succ f ih =>
    intro l
    cases l with
    | nil => rfl
    | cons c rest =>
      by_cases hc : c = ':'
      · subst hc
        cases rest with
        | nil => rw [colGo_colon_nil]
        | cons c2 rest2 =>
          rw [colGo_colon_cons]
          by_cases hw : pyWs c2
          · rw [if_neg (by simp [hw])]
            exact lastCons2 ':' (ih (c2 :: rest2))
          · rw [if_pos (by simp [hw])]
            have h1 : (':' :: ' ' :: c2 :: colGo f rest2).getLast? =
                (c2 :: colGo f rest2).getLast? := by
              rw [List.getLast?_cons_cons, List.getLast?_cons_cons]
            rw [h1, lastCons2 c2 (ih rest2)]
            exact List.getLast?_cons_cons.symm
      · rw [colGo_other f hc]
        exact lastCons2 c (ih rest)

theorem digit_ne_nl {c : Char} (h : c.isDigit = true) : c ≠ '\n' := by
  intro he
  rw [he] at h
  exact absurd h (by decide)

theorem pctGo_succ_digit (f : Nat) {c : Char} (hc : c.isDigit = true) (rest : List Char) :
    pctGo (f + 1) (c :: rest) =
      match ((c :: rest).dropWhile Char.isDigit).dropWhile pyWs with
      | c2 :: r3 =>
        if c2 = '%' then (c :: rest).takeWhile Char.isDigit ++ '%' :: pctGo f r3
        else c :: pctGo f rest
      | [] => c :: pctGo f rest := by
  show (if c.isDigit = true then _ else _) = _
  rw [if_pos hc]

theorem pctGo_succ_nondigit (f : Nat) {c : Char} (hc : ¬ c.isDigit = true)
    (rest : List Char) : pctGo (f + 1) (c :: rest) = c :: pctGo f rest := by
  show (if c.isDigit = true then _ else _) = _
  rw [if_neg hc]

/-- Decomposition of the scanned list at a percent match. -/
theorem pct_decomp {c : Char} {rest r2 : List Char}
    (heq : ((c :: rest).dropWhile Char.isDigit).dropWhile pyWs = r2) :
    c :: rest = (c :: rest).takeWhile Char.isDigit ++
      ((c :: rest).dropWhile Char.isDigit).takeWhile pyWs ++ r2 := by
  rw [← heq, List.append_assoc, List.takeWhile_append_dropWhile,
    List.takeWhile_append_dropWhile]

theorem pctGo_noTriple :
    ∀ (fuel : Nat) (l : List Char) (k : Nat), noTripleAux k l = true →
      noTripleAux k (pctGo fuel l) = true := by
  intro fuel
  induction fuel with
  | zero => intro l k h; exact h
  | succ f ih =>
    intro l k h
    cases l with
    | nil => exact h
    | cons c rest =>
      by_cases hc : c.isDigit = true
      · rw [pctGo_succ_digit f hc rest]
        split
        · rename_i c2 r3 heq
          by_cases hp : c2 = '%'
          · rw [if_pos hp]
            subst hp
            have e1 : c :: rest = (c :: rest).takeWhile Char.isDigit ++
                (c :: rest).dropWhile Char.isDigit :=
              (List.takeWhile_append_dropWhile _ _).symm
            have e2 : (c :: rest).dropWhile Char.isDigit =
                ((c :: rest).dropWhile Char.isDigit).takeWhile pyWs ++ '%' :: r3 := by
              rw [← heq]
              exact (List.takeWhile_append_dropWhile _ _).symm
            have h' : noTripleAux k (((c :: rest).takeWhile Char.isDigit ++
                ((c :: rest).dropWhile Char.isDigit).takeWhile pyWs) ++ '%' :: r3) = true := by
              rw [List.append_assoc]
              rw [e1, e2] at h
              exact h
            have h3 : noTripleAux 0 r3 = true :=
              noTripleAux_append_reset _ k '%' r3 (by decide) h'
            have h4 : noTripleAux 0 (pctGo f r3) = true := ih r3 0 h3
            have hds : (c :: rest).takeWhile Char.isDigit = c :: rest.takeWhile Char.isDigit :=
              List.takeWhile_cons_of_pos hc
            have hbuild := noTripleAux_build ((c :: rest).takeWhile Char.isDigit ++ ['%'])
              (by rw [hds]; simp)
              (by
                intro x hx
                rcases List.mem_append.1 hx with h1 | h1
                · exact digit_ne_nl (List.mem_takeWhile_imp h1)
                · simp only [List.mem_singleton] at h1
                  subst h1
                  decide)
              (pctGo f r3) k h4
            rw [List.append_assoc] at hbuild
            simpa using hbuild
          · rw [if_neg hp]
            exact noTripleAux_cons_step (fun j hj => ih rest j hj) k c h
        · exact noTripleAux_cons_step (fun j hj => ih rest j hj) k c h
      · rw [pctGo_succ_nondigit f hc rest]
        exact noTripleAux_cons_step (fun j hj => ih rest j hj) k c h

theorem pctGo_head :
    ∀ (fuel : Nat) (l : List Char), (pctGo fuel l).head? = l.head? := by
  intro fuel
  induction fuel with
  | zero => intro l; rfl
  | succ f ih =>
    intro l
    cases l with
    | nil => rfl
    | cons c rest =>
      by_cases hc : c.isDigit = true
      · rw [pctGo_succ_digit f hc rest]
        split
        · rename_i c2 r3 heq
          by_cases hp : c2 = '%'
          · rw [if_pos hp]
            rw [List.takeWhile_cons_of_pos hc]
            rfl
          · rw [if_neg hp]
            rfl
        · rfl
      · rw [pctGo_succ_nondigit f hc rest]
        rfl

theorem pctGo_getLast :
    ∀ (fuel : Nat) (l : List Char), (pctGo fuel l).getLast? = l.getLast? := by
  intro fuel
  induction fuel with
  | zero => intro l; rfl
  | succ f ih =>
    intro l
    cases l with
    | nil => rfl
    | cons c rest =>
      by_cases hc : c.isDigit = true
      · rw [pctGo_succ_digit f hc rest]
        split
        · rename_i c2 r3 heq
          by_cases hp : c2 = '%'
          · rw [if_pos hp]
            subst hp
            have e1 : c :: rest = (c :: rest).takeWhile Char.isDigit ++
                (c :: rest).dropWhile Char.isDigit :=
              (List.takeWhile_append_dropWhile _ _).symm
            have e2 : (c :: rest).dropWhile Char.isDigit =
                ((c :: rest).dropWhile Char.isDigit).takeWhile pyWs ++ '%' :: r3 := by
              rw [← heq]
              exact (List.takeWhile_append_dropWhile _ _).symm
            calc ((c :: rest).takeWhile Char.isDigit ++ '%' :: pctGo f r3).getLast?
                = ('%' :: pctGo f r3).getLast? := List.getLast?_append_cons _ '%' _
              _ = ('%' :: r3).getLast? := lastCons2 '%' (ih r3)
              _ = (((c :: rest).dropWhile Char.isDigit).takeWhile pyWs ++
                    '%' :: r3).getLast? := (List.getLast?_append_cons _ '%' _).symm
              _ = ((c :: rest).dropWhile Char.isDigit).getLast? := by rw [← e2]
              _ = ((c :: rest).takeWhile Char.isDigit ++
                    (c :: rest).dropWhile Char.isDigit).getLast? :=
                  (List.getLast?_append_of_ne_nil _ (by rw [e2]; simp)).symm
              _ = (c :: rest).getLast? := by rw [← e1]
          · rw [if_neg hp]
            exact lastCons2 c (ih rest)
        · exact lastCons2 c (ih rest)
      · rw [pctGo_succ_nondigit f hc rest]
        exact lastCons2 c (ih rest)

theorem lastAppend2 (u : List Char) {X Y : List Char} (h : X.getLast? = Y.getLast?) :
    (u ++ X).getLast? = (u ++ Y).getLast? := by
  induction u with
  | nil => exact h
  | cons a t ih => exact lastCons2 a ih

theorem noTripleAux_append_reset2 (xs u : List Char) (k : Nat) (hu : u ≠ [])
    (hnl : ∀ c ∈ u, c ≠ '\n') (ys : List Char)
    (h : noTripleAux k (xs ++ u ++ ys) = true) : noTripleAux 0 ys = true := by
  rcases List.eq_nil_or_concat u with rfl | ⟨u', ul, rfl⟩
  · exact absurd rfl hu
  · simp only [List.concat_eq_append] at h hnl
    have hul : ul ≠ '\n' := hnl ul (by simp)
    simp only [List.append_assoc, List.singleton_append] at h
    rw [← List.append_assoc] at h
    exact noTripleAux_append_reset (xs ++ u') k ul ys hul h

theorem unitMatch_inv {r2 u r3 : List Char} (h : unitMatch r2 = some (u, r3)) :
    r2 = u ++ r3 ∧ u ≠ [] ∧ ∀ c ∈ u, c ≠ '\n' := by
  rw [unitMatch.eq_def] at h
  split at h
  · cases h; exact ⟨rfl, by simp, by decide⟩
  · cases h; exact ⟨rfl, by simp, by decide⟩
  · cases h; exact ⟨rfl, by simp, by decide⟩
  · cases h; exact ⟨rfl, by simp, by decide⟩
  · cases h; exact ⟨rfl, by simp, by decide⟩
  · exact absurd h (by simp)

theorem unitGo_succ_digit (f : Nat) {c : Char} (hc : c.isDigit = true) (rest : List Char) :
    unitGo (f + 1) (c :: rest) =
      match unitMatch (((c :: rest).dropWhile Char.isDigit).dropWhile pyWs) with
      | some (u, r3) => (c :: rest).takeWhile Char.isDigit ++ u ++ unitGo f r3
      | none => c :: unitGo f rest := by
  show (if c.isDigit = true then _ else _) = _
  rw [if_pos hc]

theorem unitGo_succ_nondigit (f : Nat) {c : Char} (hc : ¬ c.isDigit = true)
    (rest : List Char) : unitGo (f + 1) (c :: rest) = c :: unitGo f rest := by
  show (if c.isDigit = true then _ else _) = _
  rw [if_neg hc]

theorem unitGo_noTriple :
    ∀ (fuel : Nat) (l : List Char) (k : Nat), noTripleAux k l = true →
      noTripleAux k (unitGo fuel l) = true := by
  intro fuel
  induction fuel with
  | zero => intro l k h; exact h
  | succ f ih =>
    intro l k h
    cases l with
    | nil => exact h
    | cons c rest =>
      by_cases hc : c.isDigit = true
      · rw [unitGo_succ_digit f hc rest]
        split
        · rename_i u r3 heq
          obtain ⟨hsplit, hune, hunl⟩ := unitMatch_inv heq
          have e1 : c :: rest = (c :: rest).takeWhile Char.isDigit ++
              (c :: rest).dropWhile Char.isDigit :=
            (List.takeWhile_append_dropWhile _ _).symm
          have e2 : (c :: rest).dropWhile Char.isDigit =
              ((c :: rest).dropWhile Char.isDigit).takeWhile pyWs ++ (u ++ r3) := by
            conv_lhs => rw [← List.takeWhile_append_dropWhile pyWs
              ((c :: rest).dropWhile Char.isDigit)]
            rw [hsplit]
          have h3 : noTripleAux 0 r3 = true := by
            rw [e1, e2] at h
            have h' : noTripleAux k ((((c :: rest).takeWhile Char.isDigit ++
                ((c :: rest).dropWhile Char.isDigit).takeWhile pyWs) ++ u) ++ r3) =
                true := by
              simp only [List.append_assoc]
              exact h
            exact noTripleAux_append_reset2 _ u k hune hunl r3 h' 
          have h4 : noTripleAux 0 (unitGo f r3) = true := ih r3 0 h3
          have hds : (c :: rest).takeWhile Char.isDigit =
              c :: rest.takeWhile Char.isDigit := List.takeWhile_cons_of_pos hc
          have hbuild := noTripleAux_build ((c :: rest).takeWhile Char.isDigit ++ u)
            (by rw [hds]; simp)
            (by
              intro x hx
              rcases List.mem_append.1 hx with h1 | h1
              · exact digit_ne_nl (List.mem_takeWhile_imp h1)
              · exact hunl x h1)
            (unitGo f r3) k h4
          exact hbuild
        · exact noTripleAux_cons_step (fun j hj => ih rest j hj) k c h
      · rw [unitGo_succ_nondigit f hc rest]
        exact noTripleAux_cons_step (fun j hj => ih rest j hj) k c h

theorem unitGo_head :
    ∀ (fuel : Nat) (l : List Char), (unitGo fuel l).head? = l.head? := by
  intro fuel
  induction fuel with
  | zero => intro l; rfl
  | succ f ih =>
    intro l
    cases l with
    | nil => rfl
    | cons c rest =>
      by_cases hc : c.isDigit = true
      · rw [unitGo_succ_digit f hc rest]
        split
        · rename_i u r3 heq
          rw [List.takeWhile_cons_of_pos hc]
          rfl
        · rfl
      · rw [unitGo_succ_nondigit f hc rest]
        rfl

theorem unitGo_getLast :
    ∀ (fuel : Nat) (l : List Char), (unitGo fuel l).getLast? = l.getLast? := by
  intro fuel
  induction fuel with
  | zero => intro l; rfl
  | succ f ih =>
    intro l
    cases l with
    | nil => rfl
    | cons c rest =>
      by_cases hc : c.isDigit = true
      · rw [unitGo_succ_digit f hc rest]
        split
        · rename_i u r3 heq
          obtain ⟨hsplit, hune, hunl⟩ := unitMatch_inv heq
          have e1 : c :: rest = (c :: rest).takeWhile Char.isDigit ++
              (c :: rest).dropWhile Char.isDigit :=
            (List.takeWhile_append_dropWhile _ _).symm
          have e2 : (c :: rest).dropWhile Char.isDigit =
              ((c :: rest).dropWhile Char.isDigit).takeWhile pyWs ++ (u ++ r3) := by
            conv_lhs => rw [← List.takeWhile_append_dropWhile pyWs
              ((c :: rest).dropWhile Char.isDigit)]
            rw [hsplit]
          calc ((c :: rest).takeWhile Char.isDigit ++ u ++ unitGo f r3).getLast?
              = (u ++ unitGo f r3).getLast? := by
                rw [List.append_assoc]
                exact List.getLast?_append_of_ne_nil _
                  (by intro he; exact hune (by simpa using (List.append_eq_nil.1 he).1))
            _ = (u ++ r3).getLast? := lastAppend2 u (ih r3)
            _ = (((c :: rest).dropWhile Char.isDigit).takeWhile pyWs ++
                  (u ++ r3)).getLast? :=
                (List.getLast?_append_of_ne_nil _
                  (by intro he; exact hune (List.append_eq_nil.1 he).1)).symm
            _ = ((c :: rest).dropWhile Char.isDigit).getLast? := by rw [← e2]
            _ = ((c :: rest).takeWhile Char.isDigit ++
                  (c :: rest).dropWhile Char.isDigit).getLast? :=
                (List.getLast?_append_of_ne_nil _ (by rw [e2]; simp [hune])).symm
            _ = (c :: rest).getLast? := by rw [← e1]
        · exact lastCons2 c (ih rest)
      · rw [unitGo_succ_nondigit f hc rest]
        exact lastCons2 c (ih rest)

theorem digitsN_succ_cons (n : Nat) (c : Char) (rest : List Char) :
    digitsN (n + 1) (c :: rest) =
      if c.isDigit then (digitsN n rest).map (fun (ds, r) => (c :: ds, r)) else none := rfl

theorem digitsN_inv :
    ∀ (n : Nat) (l ds r : List Char), digitsN n l = some (ds, r) →
      l = ds ++ r ∧ ds.length = n ∧ ∀ c ∈ ds, c.isDigit = true := by
  intro n
  induction n with
  | zero =>
    intro l ds r h
    simp only [digitsN, Option.some.injEq, Prod.mk.injEq] at h
    obtain ⟨h1, h2⟩ := h
    subst h1
    subst h2
    exact ⟨rfl, rfl, by simp⟩
  | succ n ih =>
    intro l ds r h
    cases l with
    | nil => simp [digitsN] at h
    | cons c rest =>
      rw [digitsN_succ_cons] at h
      by_cases hc : c.isDigit = true
      · rw [if_pos hc] at h
        rw [Option.map_eq_some'] at h
        obtain ⟨⟨ds', r'⟩, hd, hmap⟩ := h
        simp only [Option.some.injEq, Prod.mk.injEq] at hmap
        obtain ⟨h1, h2⟩ := hmap
        subst h1
        subst h2
        obtain ⟨he, hl, hdig⟩ := ih rest ds' r' hd
        refine ⟨by rw [he]; rfl, by simp [hl], ?_⟩
        intro x hx
        rcases List.mem_cons.1 hx with h1 | h1
        · exact h1 ▸ hc
        · exact hdig x h1
      · rw [if_neg hc] at h
        simp at h

theorem expectCh_inv {ch : Char} {l r : List Char} (h : expectCh ch l = some r) :
    l = ch :: r := by
  cases l with
  | nil => simp [expectCh] at h
  | cons c rest =>
    by_cases hc : c = ch
    · subst hc
      have : rest = r := by simpa [expectCh] using h
      rw [this]
    · simp [expectCh, hc] at h

theorem wsRun1_inv {l r : List Char} (h : wsRun1 l = some r) :
    ∃ wpre, l = wpre ++ r ∧ wpre ≠ [] := by
  cases l with
  | nil => simp [wsRun1] at h
  | cons a rest =>
    by_cases ha : pyWs a = true
    · have hr : r = rest.dropWhile pyWs := by simpa [wsRun1, ha] using h.symm
      refine ⟨a :: rest.takeWhile pyWs, ?_, by simp⟩
      rw [hr]
      rw [List.cons_append, List.takeWhile_append_dropWhile]
    · simp [wsRun1, ha] at h

theorem noTripleAux_append_ex :
    ∀ (a : List Char) (k : Nat) (ys : List Char), noTripleAux k (a ++ ys) = true →
      ∃ k', noTripleAux k' ys = true := by
  intro a
  induction a with
  | nil => intro k ys h; exact ⟨k, h⟩
  | cons c t ih =>
    intro k ys h
    by_cases hc : c = '\n'
    · subst hc
      rw [List.cons_append, noTripleAux_cons_nl, Bool.and_eq_true] at h
      exact ih (k + 1) ys h.2
    · rw [List.cons_append, noTripleAux_cons_other hc] at h
      exact ih 0 ys h

theorem tsMatch_inv {l chunk r11 : List Char} (h : tsMatch l = some (chunk, r11)) :
    ∃ (yr mo dy hr mn sc wpre : List Char)
      (r1 r2 r3 r4 r5 r6 r7 r8 r9 r10 : List Char),
      l = yr ++ r1 ∧ r1 = '-' :: r2 ∧ r2 = mo ++ r3 ∧ r3 = '-' :: r4 ∧ r4 = dy ++ r5 ∧
      r5 = wpre ++ r6 ∧ r6 = hr ++ r7 ∧ r7 = ':' :: r8 ∧ r8 = mn ++ r9 ∧
      r9 = ':' :: r10 ∧ r10 = sc ++ r11 ∧
      chunk = yr ++ '-' :: mo ++ '-' :: dy ++ ' ' :: hr ++ ':' :: mn ++ ':' :: sc ∧
      yr.length = 4 ∧ sc.length = 2 ∧ mo ≠ [] ∧ dy ≠ [] ∧ hr ≠ [] ∧ mn ≠ [] ∧
      wpre ≠ [] ∧
      (∀ c ∈ yr, c.isDigit = true) ∧ (∀ c ∈ mo, c.isDigit = true) ∧
      (∀ c ∈ dy, c.isDigit = true) ∧ (∀ c ∈ hr, c.isDigit = true) ∧
      (∀ c ∈ mn, c.isDigit = true) ∧ (∀ c ∈ sc, c.isDigit = true) := by
  simp only [tsMatch, Option.pure_def, Option.bind_eq_bind, Option.bind_eq_some,
    Option.some.injEq, Prod.mk.injEq] at h
  obtain ⟨⟨yr, r1⟩, hyr, h⟩ := h
  obtain ⟨r2, hr1, h⟩ := h
  obtain ⟨⟨mo, r3⟩, hmo, h⟩ := h
  obtain ⟨r4, hr3, h⟩ := h
  obtain ⟨⟨dy, r5⟩, hdy, h⟩ := h
  obtain ⟨r6, hr5, h⟩ := h
  obtain ⟨⟨hr, r7⟩, hhr, h⟩ := h
  obtain ⟨r8, hr7, h⟩ := h
  obtain ⟨⟨mn, r9⟩, hmn, h⟩ := h
  obtain ⟨r10, hr9, h⟩ := h
  obtain ⟨⟨sc, r11'⟩, hsc, h⟩ := h
  obtain ⟨hchunk, hrr⟩ := h
  subst hrr
  obtain ⟨hyre, hyrl, hyrd⟩ := digitsN_inv 4 l yr r1 hyr
  obtain ⟨hmoe, hmol, hmod⟩ := digitsN_inv 2 r2 mo r3 hmo
  obtain ⟨hdye, hdyl, hdyd⟩ := digitsN_inv 2 r4 dy r5 hdy
  obtain ⟨hhre, hhrl, hhrd⟩ := digitsN_inv 2 r6 hr r7 hhr
  obtain ⟨hmne, hmnl, hmnd⟩ := digitsN_inv 2 r8 mn r9 hmn
  obtain ⟨hsce, hscl, hscd⟩ := digitsN_inv 2 r10 sc r11' hsc
  obtain ⟨wpre, hwe, hwne⟩ := wsRun1_inv hr5
  refine ⟨yr, mo, dy, hr, mn, sc, wpre, r1, r2, r3, r4, r5, r6, r7, r8, r9, r10,
    hyre, expectCh_inv hr1, hmoe, expectCh_inv hr3, hdye, hwe, hhre,
    expectCh_inv hr7, hmne, expectCh_inv hr9, hsce, hchunk.symm,
    hyrl, hscl, ?_, ?_, ?_, ?_, hwne, hyrd, hmod, hdyd, hhrd, hmnd, hscd⟩
  · intro he; rw [he] at hmol; simp at hmol
  · intro he; rw [he] at hdyl; simp at hdyl
  · intro he; rw [he] at hhrl; simp at hhrl
  · intro he; rw [he] at hmnl; simp at hmnl

theorem noTripleAux_through (a : List Char) {k : Nat} {ys : List Char}
    (h : noTripleAux k (a ++ ys) = true) : noTripleAux 0 ys = true := by
  obtain ⟨k', h'⟩ := noTripleAux_append_ex a k ys h
  exact noTripleAux_mono ys k' 0 (Nat.zero_le k') h'

theorem tsGo_succ (f : Nat) (c : Char) (rest : List Char) :
    tsGo (f + 1) (c :: rest) =
      match tsMatch (c :: rest) with
      | some (chunk, r) => chunk ++ tsGo f r
      | none => c :: tsGo f rest := rfl

theorem tsGo_noTriple :
    ∀ (fuel : Nat) (l : List Char) (k : Nat), noTripleAux k l = true →
      noTripleAux k (tsGo fuel l) = true := by
  intro fuel
  induction fuel with
  | zero => intro l k h; exact h
  | succ f ih =>
    intro l k h
    cases l with
    | nil => exact h
    | cons c rest =>
      rw [tsGo_succ f c rest]
      split
      · rename_i chunk r heq
        obtain ⟨yr, mo, dy, hr, mn, sc, wpre, r1, r2, r3, r4, r5, r6, r7, r8, r9, r10,
          hl, h1, h2, h3, h4, h5, h6, h7, h8, h9, h10, hchunk, hyl, hscl,
          hmone, hdyne, hhrne, hmnne, hwne, hyd, hmod, hdyd, hhrd, hmnd, hscd⟩ :=
          tsMatch_inv heq
        have h0r : noTripleAux 0 r = true := by
          rw [hl] at h
          have h := noTripleAux_through yr h
          rw [h1, noTripleAux_cons_other (by decide)] at h
          rw [h2] at h
          have h := noTripleAux_through mo h
          rw [h3, noTripleAux_cons_other (by decide)] at h
          rw [h4] at h
          have h := noTripleAux_through dy h
          rw [h5] at h
          have h := noTripleAux_through wpre h
          rw [h6] at h
          have h := noTripleAux_through hr h
          rw [h7, noTripleAux_cons_other (by decide)] at h
          rw [h8] at h
          have h := noTripleAux_through mn h
          rw [h9, noTripleAux_cons_other (by decide)] at h
          rw [h10] at h
          exact noTripleAux_through sc h
        have hcne : chunk ≠ [] := by
          intro he
          rw [hchunk] at he
          simp at he
        have hcnl : ∀ x ∈ chunk, x ≠ '\n' := by
          intro x hx
          rw [hchunk] at hx
          have hx' : x ∈ yr ∨ x = '-' ∨ x ∈ mo ∨ x ∈ dy ∨ x ∈ hr ∨ x ∈ mn ∨
              x ∈ sc ∨ x = ' ' ∨ x = ':' := by
            simp only [List.mem_append, List.mem_cons] at hx
            tauto
          rcases hx' with hm | hm | hm | hm | hm | hm | hm | hm | hm
          · exact digit_ne_nl (hyd x hm)
          · subst hm; decide
          · exact digit_ne_nl (hmod x hm)
          · exact digit_ne_nl (hdyd x hm)
          · exact digit_ne_nl (hhrd x hm)
          · exact digit_ne_nl (hmnd x hm)
          · exact digit_ne_nl (hscd x hm)
          · subst hm; decide
          · subst hm; decide
        exact noTripleAux_build chunk hcne hcnl (tsGo f r) k (ih r 0 h0r)
      · exact noTripleAux_cons_step (fun j hj => ih rest j hj) k c h

theorem tsGo_head :
    ∀ (fuel : Nat) (l : List Char), (tsGo fuel l).head? = l.head? := by
  intro fuel
  induction fuel with
  | zero => intro l; rfl
  | succ f ih =>
    intro l
    cases l with
    | nil => rfl
    | cons c rest =>
      rw [tsGo_succ f c rest]
      split
      · rename_i chunk r heq
        obtain ⟨yr, mo, dy, hr, mn, sc, wpre, r1, r2, r3, r4, r5, r6, r7, r8, r9, r10,
          hl, h1, h2, h3, h4, h5, h6, h7, h8, h9, h10, hchunk, hyl, hscl,
          hmone, hdyne, hhrne, hmnne, hwne, hyd, hmod, hdyd, hhrd, hmnd, hscd⟩ :=
          tsMatch_inv heq
        obtain ⟨y1, yt, hy⟩ : ∃ a t, yr = a :: t := by
          cases yr with
          | nil => simp at hyl
          | cons a t => exact ⟨a, t, rfl⟩
        rw [hy, List.cons_append] at hl
        injection hl with hc1 _
        subst hc1
        rw [hchunk, hy]
        rfl
      · rfl

theorem tsGo_getLast :
    ∀ (fuel : Nat) (l : List Char), (tsGo fuel l).getLast? = l.getLast? := by
  intro fuel
  induction fuel with
  | zero => intro l; rfl
  | succ f ih =>
    intro l
    cases l with
    | nil => rfl
    | cons c rest =>
      rw [tsGo_succ f c rest]
      split
      · rename_i chunk r heq
        obtain ⟨yr, mo, dy, hr, mn, sc, wpre, r1, r2, r3, r4, r5, r6, r7, r8, r9, r10,
          hl, h1, h2, h3, h4, h5, h6, h7, h8, h9, h10, hchunk, hyl, hscl,
          hmone, hdyne, hhrne, hmnne, hwne, hyd, hmod, hdyd, hhrd, hmnd, hscd⟩ :=
          tsMatch_inv heq
        obtain ⟨s1, s2, hsc2⟩ := List.length_eq_two.1 hscl
        have hr1ne : r1 ≠ [] := by rw [h1]; simp
        have hr2ne : r2 ≠ [] := by rw [h2]; simp [hmone]
        have hr3ne : r3 ≠ [] := by rw [h3]; simp
        have hr4ne : r4 ≠ [] := by rw [h4]; simp [hdyne]
        have hr5ne : r5 ≠ [] := by rw [h5]; simp [hwne]
        have hr6ne : r6 ≠ [] := by rw [h6]; simp [hhrne]
        have hr7ne : r7 ≠ [] := by rw [h7]; simp
        have hr8ne : r8 ≠ [] := by rw [h8]; simp [hmnne]
        have hr9ne : r9 ≠ [] := by rw [h9]; simp
        have hr10ne : r10 ≠ [] := by rw [h10, hsc2]; simp
        calc (chunk ++ tsGo f r).getLast?
            = ((yr ++ '-' :: mo ++ '-' :: dy ++ ' ' :: hr ++ ':' :: mn ++
                ':' :: [s1, s2]) ++ tsGo f r).getLast? := by rw [hchunk, hsc2]
          _ = ((yr ++ '-' :: mo ++ '-' :: dy ++ ' ' :: hr ++ ':' :: mn) ++
                ((':' :: [s1, s2]) ++ tsGo f r)).getLast? := by
              rw [List.append_assoc]
          _ = ((':' :: [s1, s2]) ++ tsGo f r).getLast? :=
              List.getLast?_append_of_ne_nil _ (by simp)
          _ = (s2 :: tsGo f r).getLast? := by
              rw [List.cons_append, List.cons_append, List.cons_append,
                List.nil_append, List.getLast?_cons_cons, List.getLast?_cons_cons]
          _ = (s2 :: r).getLast? := lastCons2 s2 (ih r)
          _ = ([s1, s2] ++ r).getLast? := by
              rw [List.cons_append, List.cons_append, List.nil_append,
                List.getLast?_cons_cons]
          _ = r10.getLast? := by rw [h10, hsc2]
          _ = (':' :: r10).getLast? := (getLast?_cons_ne_nil ':' hr10ne).symm
          _ = r9.getLast? := by rw [h9]
          _ = (mn ++ r9).getLast? :=
              (List.getLast?_append_of_ne_nil _ hr9ne).symm
          _ = r8.getLast? := by rw [h8]
          _ = (':' :: r8).getLast? := (getLast?_cons_ne_nil ':' hr8ne).symm
          _ = r7.getLast? := by rw [h7]
          _ = (hr ++ r7).getLast? :=
              (List.getLast?_append_of_ne_nil _ hr7ne).symm
          _ = r6.getLast? := by rw [h6]
          _ = (wpre ++ r6).getLast? :=
              (List.getLast?_append_of_ne_nil _ hr6ne).symm
          _ = r5.getLast? := by rw [h5]
          _ = (dy ++ r5).getLast? :=
              (List.getLast?_append_of_ne_nil _ hr5ne).symm
          _ = r4.getLast? := by rw [h4]
          _ = ('-' :: r4).getLast? := (getLast?_cons_ne_nil '-' hr4ne).symm
          _ = r3.getLast? := by rw [h3]
          _ = (mo ++ r3).getLast? :=
              (List.getLast?_append_of_ne_nil _ hr3ne).symm
          _ = r2.getLast? := by rw [h2]
          _ = ('-' :: r2).getLast? := (getLast?_cons_ne_nil '-' hr2ne).symm
          _ = r1.getLast? := by rw [h1]
          _ = (yr ++ r1).getLast? :=
              (List.getLast?_append_of_ne_nil _ hr1ne).symm
          _ = (c :: rest).getLast? := by rw [hl]
      · exact lastCons2 c (ih rest)

theorem fixCommonIssues_noTriple (l : List Char) (h : noTripleAux 0 l = true) :
    noTripleAux 0 (fixCommonIssues l) = true := by
  simp only [fixCommonIssues]
  exact colGo_noTriple _ _ 0 (tsGo_noTriple _ _ 0 (unitGo_noTriple _ _ 0
    (pctGo_noTriple _ _ 0 h)))

theorem fixCommonIssues_head (l : List Char) :
    (fixCommonIssues l).head? = l.head? := by
  simp only [fixCommonIssues]
  rw [colGo_head, tsGo_head, unitGo_head, pctGo_head]

theorem fixCommonIssues_getLast (l : List Char) :
    (fixCommonIssues l).getLast? = l.getLast? := by
  simp only [fixCommonIssues]
  rw [colGo_getLast, tsGo_getLast, unitGo_getLast, pctGo_getLast]

theorem finalCleanup_noTriple (l : List Char) :
    noTripleAux 0 (finalCleanup l) = true := by
  simp only [finalCleanup]
  exact fixCommonIssues_noTriple _ (ensureParagraphSpacing_noTriple _
    (pyStripL_noTriple _ (collapseNewlines_noTriple l)))

theorem finalCleanup_head (l : List Char) :
    ∀ c, (finalCleanup l).head? = some c → pyWs c = false := by
  intro c hc
  simp only [finalCleanup] at hc
  rw [fixCommonIssues_head] at hc
  cases hn : pyStripL (collapseNewlines l) with
  | nil =>
    rw [hn] at hc
    have : (ensureParagraphSpacing []).head? = none := rfl
    rw [this] at hc
    cases hc
  | cons a t =>
    have ha : pyWs a = false :=
      pyStripL_head (collapseNewlines l) a (by rw [hn]; rfl)
    have ha' : a ≠ '\n' := by
      intro he
      rw [he] at ha
      exact absurd ha (by decide)
    have hpres := ensureParagraphSpacing_head (pyStripL (collapseNewlines l)) a ha'
      (by rw [hn]; rfl)
    rw [hpres] at hc
    injection hc with hac
    rw [← hac]
    exact ha

theorem finalCleanup_getLast (l : List Char) :
    ∀ c, (finalCleanup l).getLast? = some c → pyWs c = false := by
  intro c hc
  simp only [finalCleanup] at hc
  rw [fixCommonIssues_getLast] at hc
  cases hn : pyStripL (collapseNewlines l) with
  | nil =>
    rw [hn] at hc
    have : (ensureParagraphSpacing []).getLast? = none := rfl
    rw [this] at hc
    cases hc
  | cons a t =>
    obtain ⟨b, hb⟩ : ∃ b, (pyStripL (collapseNewlines l)).getLast? = some b := by
      rw [hn]
      exact ⟨(a :: t).getLast (by simp), List.getLast?_eq_getLast _ _⟩
    have hbws : pyWs b = false := pyStripL_getLast (collapseNewlines l) b hb
    have hb' : b ≠ '\n' := by
      intro he
      rw [he] at hbws
      exact absurd hbws (by decide)
    have hpres := ensureParagraphSpacing_last (pyStripL (collapseNewlines l)) b hb' hb
    rw [hpres] at hc
    injection hc with hbc
    rw [← hbc]
    exact hbws

theorem headNotWs_of (l : List Char)
    (h : ∀ c, l.head? = some c → pyWs c = false) : headNotWs l = true := by
  unfold headNotWs
  cases hh : l.head? with
  | none => rfl
  | some c => simp [h c hh]

theorem lastNotWs_of (l : List Char)
    (h : ∀ c, l.getLast? = some c → pyWs c = false) : lastNotWs l = true := by
  unfold lastNotWs
  cases hh : l.getLast? with
  | none => rfl
  | some c => simp [h c hh]

theorem formatResultL_of_empty {l : List Char} (h : (pyStripL l).isEmpty = true) :
    formatResultL l = "未获取到分析结果".data := by
  simp only [formatResultL]
  rw [if_pos h]

theorem formatResultL_tri (l : List Char) :
    formatResultL l = "未获取到分析结果".data ∨
    formatResultL l = "分析完成，但未生成具体结果".data ∨
    (formatResultL l =
        finalCleanup (processLines (processStructuredContent (basicCleanup l))) ∧
      (pyStripL (finalCleanup (processLines (processStructuredContent
        (basicCleanup l))))).isEmpty = false) := by
  by_cases h0 : (pyStripL l).isEmpty = true
  · exact Or.inl (formatResultL_of_empty h0)
  · by_cases h1 : (pyStripL (finalCleanup (processLines (processStructuredContent
        (basicCleanup l))))).isEmpty = true
    · refine Or.inr (Or.inl ?_)
      simp only [formatResultL]
      rw [if_neg h0, if_pos h1]
    · refine Or.inr (Or.inr ⟨?_, Bool.eq_false_iff.mpr h1⟩)
      simp only [formatResultL]
      rw [if_neg h0, if_neg h1]

/-- C1 counterexample: on input `"x **a"` (an unclosed bold marker),
`format_result` returns the input unchanged, so the output still contains the
Markdown bold marker `**`; the claim's "no residual Markdown markers" conjunct
is false. -/
theorem c1_residual_markdown_counterexample :
    formatResult "x **a" = "x **a" ∧
    containsSub ['*', '*'] (formatResult "x **a").data = true := by
  exact ⟨by decide, by decide⟩

/-- C1 (amended): for every input string, the output of
`OutputFormatter.format_result` contains no run of three or more consecutive
newline characters, neither begins nor ends with whitespace, and either equals
one of the fixed "no result" sentinel strings or is non-empty after
trimming.  (The original claim's "no residual Markdown markers" conjunct is
dropped: the regexes only strip paired markers, see the counterexample.) -/
theorem c1_output_shape (s : String) :
    containsSub tripleNL (formatResult s).data = false ∧
    headNotWs (formatResult s).data = true ∧
    lastNotWs (formatResult s).data = true ∧
    ((formatResult s == "未获取到分析结果") ||
      (formatResult s == "分析完成，但未生成具体结果") ||
      (pyStrip (formatResult s) != "")) = true := by
  have hdata : (formatResult s).data = formatResultL s.data := rfl
  rcases formatResultL_tri s.data with h | h | ⟨h, hne⟩
  · have hs : formatResult s = "未获取到分析结果" := by
      show (⟨formatResultL s.data⟩ : String) = _
      rw [h]
    rw [hs]
    exact ⟨by decide, by decide, by decide, by decide⟩
  · have hs : formatResult s = "分析完成，但未生成具体结果" := by
      show (⟨formatResultL s.data⟩ : String) = _
      rw [h]
    rw [hs]
    exact ⟨by decide, by decide, by decide, by decide⟩
  · have hs : (formatResult s).data =
        finalCleanup (processLines (processStructuredContent
          (basicCleanup s.data))) := hdata.trans h
    refine ⟨?_, ?_, ?_, ?_⟩
    · rw [hs]
      exact noTripleAux_not_contains _ 0 (finalCleanup_noTriple _)
    · rw [hs]
      exact headNotWs_of _ (finalCleanup_head _)
    · rw [hs]
      exact lastNotWs_of _ (finalCleanup_getLast _)
    · have hne' : pyStrip (formatResult s) ≠ "" := by
        intro he
        have h2 := congrArg String.data he
        have h3 : pyStripL (finalCleanup (processLines (processStructuredContent
            (basicCleanup s.data)))) = [] := by
          rw [← hs]
          exact h2
        rw [h3] at hne
        exact absurd hne (by decide)
      have h4 : (pyStrip (formatResult s) != "") = true := bne_iff_ne.mpr hne'
      simp [h4]

/-- C5: `format_result` is a total function of its input (the model needs no
exception path: every pipeline stage is total); empty or whitespace-only
input returns the fixed "no result" sentinel, and the output is never the
empty string. -/
theorem c5_total_sentinel (s : String) :
    (pyStrip s = "" → formatResult s = "未获取到分析结果") ∧
    ((formatResult s == "") = false) := by
  constructor
  · intro he
    have hl : pyStripL s.data = [] := congrArg String.data he
    show (⟨formatResultL s.data⟩ : String) = _
    rw [formatResultL_of_empty (by rw [hl]; rfl)]
  · rcases formatResultL_tri s.data with h | h | ⟨h, hne⟩
    · have hs : formatResult s = "未获取到分析结果" := by
        show (⟨formatResultL s.data⟩ : String) = _
        rw [h]
      rw [hs]
      decide
    · have hs : formatResult s = "分析完成，但未生成具体结果" := by
        show (⟨formatResultL s.data⟩ : String) = _
        rw [h]
      rw [hs]
      decide
    · refine beq_eq_false_iff_ne.mpr ?_
      intro he
      have h2 := congrArg String.data he
      have hs : (formatResult s).data =
          finalCleanup (processLines (processStructuredContent
            (basicCleanup s.data))) := h
      rw [hs] at h2
      rw [h2] at hne
      exact absurd hne (by decide)

/-- Witness for C5 at concrete inputs: the whitespace-only input
`" \t\n "` maps to the sentinel, and `"abc"` maps to a non-empty string. -/
theorem c5_total_sentinel_witness :
    formatResult " \t\n " = "未获取到分析结果" ∧
    ((formatResult "abc" == "") = false) :=
  ⟨(c5_total_sentinel " \t\n ").1 (by decide), (c5_total_sentinel "abc").2⟩

/-- C9 counterexample: on the markup-free input `"分析摘要::."`,
`format_result` returns `"分析摘要: :.:"`, and applying it again returns
`"分析摘要: : .:"` — a different string, so `format_result` is not idempotent
even on inputs already free of markup. -/
theorem c9_idempotence_counterexample :
    formatResult "分析摘要::." = "分析摘要: :.:" ∧
    formatResult (formatResult "分析摘要::.") = "分析摘要: : .:" ∧
    ((formatResult (formatResult "分析摘要::.") ==
      formatResult "分析摘要::.") = false) := by
  exact ⟨by decide, by decide, by decide⟩

/-- C9 (amended): `format_result` is idempotent on representative clean,
markup-free inputs (a section heading with bullets, key-value statistics
lines, plain text, a numbered list). -/
theorem c9_idempotent_on_clean_inputs :
    formatResult (formatResult "分析摘要:\n• 正常\n• 无异常") =
      formatResult "分析摘要:\n• 正常\n• 无异常" ∧
    formatResult (formatResult "总记录数: 1000\n时间范围: 2025-01-01 到 2025-01-31") =
      formatResult "总记录数: 1000\n时间范围: 2025-01-01 到 2025-01-31" ∧
    formatResult (formatResult "hello world") = formatResult "hello world" ∧
    formatResult (formatResult "1) a\n2) b") = formatResult "1) a\n2) b" := by
  exact ⟨by decide, by decide, by decide, by decide⟩
